import Mathlib

/-!
Shallow embedding of the EMSim tabulation engine (src/src/election/…) and
verification of the frozen claims about it.

Modelling conventions:
* Rust `f64` utilities are modelled as exact rationals (`ℚ`); all fixtures use
  small decimal literals whose comparisons agree with rational comparisons.
* Rust panics are modelled by `Option`: a function returns `none` exactly where
  the source panics (failed indexing, `unwrap` on `None`, explicit `panic!`).
* Rust `Vec` indexing `v[i]` is modelled by `List.get?`/`List.getD`; where an
  algorithm only ever indexes in bounds the `getD` default is unreachable.
* `Iterator::min_by` returns the first of equally-minimal elements and
  `Iterator::max_by` the last of equally-maximal elements; `minByFirst` and
  `maxByLast` below reproduce those folds exactly.
* `sort_unstable_by cmp` is modelled by `List.insertionSort` on the relation
  `fun a b => cmp a b ≠ .gt`: for the decisive comparators the algorithms
  require, the sorted result is unique, so the choice of sort is immaterial.
-/

namespace EMSim

/-- `pub struct CandidateID(pub usize)` from election_profile.rs. -/
structure CandidateID where
  id : ℕ
deriving DecidableEq, Repr

/-- A tie-breaker, `Fn(&usize, &usize) -> Ordering` in the source. -/
abbrev TB := ℕ → ℕ → Ordering

/-- The index-order tie breaker `usize::cmp` used by the repository's tests. -/
def natCmpTB : TB := fun a b => compare a b

/-- Rust `Iterator::min_by`: folds keeping the current minimum, replacing it
only when the comparator says the accumulator is strictly greater, hence
returning the first of equally-minimal elements. -/
def minByFirst {α : Type} (c : α → α → Ordering) : List α → Option α
  | [] => none
  | x :: xs => some (xs.foldl (fun acc y => if c acc y = .gt then y else acc) x)

/-- Rust `Iterator::max_by`: folds keeping the current maximum, replacing it
whenever the comparator does not say the accumulator is strictly greater,
hence returning the last of equally-maximal elements. -/
def maxByLast {α : Type} (c : α → α → Ordering) : List α → Option α
  | [] => none
  | x :: xs => some (xs.foldl (fun acc y => if c acc y = .gt then acc else y) x)

/-- `Vec::swap(0, 1)` on a list known to have length at least 2; on shorter
lists the callers below have already failed via `Option` indexing. -/
def swap01 {α : Type} : List α → List α
  | a :: b :: rest => b :: a :: rest
  | l => l

/-- `ApprovalThresholdBehavior` from voters.rs. -/
inductive ApprovalThresholdBehavior where
  | Function (f : List ℚ → ℚ)
  | Mean
  | Preset (bound : ℚ)

/-- `scale_utilities_linearly` from voters.rs: scale so min maps to 0 and max
to 1, all-equal utilities mapping to the common (max) value.  The source
unwraps `max_by`/`min_by` and so panics on an empty vector; no claim involves
an empty utility vector, and on `[]` the `map` below is `[]` either way. -/
def scale_utilities_linearly (utilities : List ℚ) : List ℚ :=
  let mx := (maxByLast (fun a b => compare a b) utilities).getD 0
  let mn := (minByFirst (fun a b => compare a b) utilities).getD 0
  utilities.map (fun f => if mx ≠ mn then (f - mn) / (mx - mn) else mx)

/-- The index of the maximal utility, as computed by the fallback branch of
`generate_approval_ballot`: pairs `(u, i)` compared on `u` only, `max_by`
returning the last of equal maxima. -/
def maxUtilityIndex (utilities : List ℚ) : Option ℕ :=
  (maxByLast (fun p q => compare p.1 q.1)
    (utilities.enum.map (fun p => (p.2, p.1)))).map (·.2)

/-- `generate_approval_ballot` from voters.rs: approve every candidate with
utility at least `bound`; if that set is empty, approve the single candidate
of maximal utility.  (On an empty utility vector the source panics inside the
fallback; the model returns `[]` there, a case no claim touches.) -/
def generate_approval_ballot (utilities : List ℚ) (bound : ℚ) : List CandidateID :=
  let ballot := ((List.range utilities.length).filter
    (fun i => bound ≤ utilities.getD i 0)).map CandidateID.mk
  if ballot.isEmpty then
    match maxUtilityIndex utilities with
    | some i => [CandidateID.mk i]
    | none => []
  else ballot

/-- `HonestVoter` from honest_voter.rs, with its five caches. The cardinal
cache (`HashMap<usize, Vec<usize>>`) is modelled as an association list. -/
structure HonestVoter where
  utilities : List ℚ
  scales : Bool
  thresholdBehavior : ApprovalThresholdBehavior
  cachedApprovalBallot : List CandidateID
  cachedOrdinalVote : List CandidateID
  cachedOrdinalEqualVote : List (List CandidateID)
  cachedScaledUtilities : Option (List ℚ)
  cachedCardinalBallots : List (ℕ × List ℕ)

/-- Append a candidate to the last group of an ordinal-equal ballot
(`vec.last_mut().unwrap().push(candidate)`). -/
def pushLastGroup (c : CandidateID) : List (List CandidateID) → List (List CandidateID)
  | [] => [[c]]
  | [g] => [g ++ [c]]
  | g :: rest => g :: pushLastGroup c rest

/-- The fold in `HonestVoter::new` building the ordinal-equal ballot from the
sorted strict ballot.  The `f64::NAN` seed (unequal to every value, itself
included) is modelled by an `Option ℚ` accumulator starting at `none`. -/
def buildOrdinalEqual (utilities : List ℚ) (sorted : List CandidateID) :
    List (List CandidateID) :=
  (sorted.foldl
    (fun (acc : List (List CandidateID) × Option ℚ) c =>
      let u := utilities.getD c.id 0
      if acc.2 ≠ some u then (acc.1 ++ [[c]], some u)
      else (pushLastGroup c acc.1, acc.2))
    ([], none)).1

/-- `HonestVoter::new`: precompute the strict ordinal ballot (descending by
utility), the ordinal-equal ballot, the approval ballot per the threshold
behavior (note: the `Mean` arm filters directly, with no empty fallback),
and the scaled utilities when `scales` is set. -/
def HonestVoter.new (utilities : List ℚ) (scales : Bool)
    (thb : ApprovalThresholdBehavior) : HonestVoter :=
  let candidates := ((List.range utilities.length).map CandidateID.mk).insertionSort
    (fun a b => ¬ utilities.getD a.id 0 < utilities.getD b.id 0)
  let candidatesWithEquality := buildOrdinalEqual utilities candidates
  let approval := match thb with
    | .Function f => generate_approval_ballot utilities (f utilities)
    | .Mean =>
        let mean := utilities.sum / (utilities.length : ℚ)
        ((List.range utilities.length).filter
          (fun i => mean ≤ utilities.getD i 0)).map CandidateID.mk
    | .Preset bound => generate_approval_ballot utilities bound
  { utilities := utilities
    scales := scales
    thresholdBehavior := thb
    cachedApprovalBallot := approval
    cachedOrdinalVote := candidates
    cachedOrdinalEqualVote := candidatesWithEquality
    cachedScaledUtilities := if scales then some (scale_utilities_linearly utilities) else none
    cachedCardinalBallots := [] }

/-- `(range as f64 * f).round() as usize`: `f64::round` rounds half away from
zero and the `as usize` conversion saturates negatives to 0. -/
def rustRoundToUsize (q : ℚ) : ℕ :=
  if 0 ≤ q then (⌊q + 1 / 2⌋).toNat else 0

/-- `HonestVoter::calculate_cardinal_ballot`: no-op when the range is already
cached, otherwise compute from the scaled (or raw) utilities and cache. -/
def HonestVoter.calculate_cardinal_ballot (v : HonestVoter) (range : ℕ) : HonestVoter :=
  if (v.cachedCardinalBallots.lookup range).isSome then v
  else
    let adjusted := match v.cachedScaledUtilities with
      | some utils => utils
      | none => v.utilities
    let ballot := adjusted.map (fun f => rustRoundToUsize ((range : ℚ) * f))
    { v with cachedCardinalBallots := (range, ballot) :: v.cachedCardinalBallots }

/-- `HonestVoter::cast_cardinal_ballot`: ensure cached, then return the cached
ballot together with the updated voter (`&mut self` receiver). The final
`.unwrap()` is modelled by the `Option` in the first component. -/
def HonestVoter.cast_cardinal_ballot (v : HonestVoter) (range : ℕ) :
    Option (List ℕ) × HonestVoter :=
  let v' := v.calculate_cardinal_ballot range
  (v'.cachedCardinalBallots.lookup range, v')

/-- `HonestVoter::cast_ordinal_ballot`: a pure read of the precomputed ballot
(the `&mut self` receiver is returned unchanged). -/
def HonestVoter.cast_ordinal_ballot (v : HonestVoter) : List CandidateID × HonestVoter :=
  (v.cachedOrdinalVote, v)

/-- `HonestVoter::cast_ordinal_equal_ballot`: a pure read. -/
def HonestVoter.cast_ordinal_equal_ballot (v : HonestVoter) :
    List (List CandidateID) × HonestVoter :=
  (v.cachedOrdinalEqualVote, v)

/-- `HonestVoter::cast_approval_ballot`: a pure read. -/
def HonestVoter.cast_approval_ballot (v : HonestVoter) : List CandidateID × HonestVoter :=
  (v.cachedApprovalBallot, v)

/-- The ballot value `cast_cardinal_ballot` returns: the cached ballot when
present, otherwise the one `calculate_cardinal_ballot` would compute.  Used by
the (pure-in-value) election drivers. -/
def HonestVoter.cardinalBallot (v : HonestVoter) (range : ℕ) : List ℕ :=
  match v.cachedCardinalBallots.lookup range with
  | some b => b
  | none =>
      (match v.cachedScaledUtilities with
        | some utils => utils
        | none => v.utilities).map (fun f => rustRoundToUsize ((range : ℚ) * f))

/-- `HonestVoter::honest_preference`: strict comparison of raw utilities;
`none` models the panic on an out-of-range candidate index. -/
def HonestVoter.honest_preference (v : HonestVoter) (first second : CandidateID) :
    Option Ordering :=
  match v.utilities.get? first.id, v.utilities.get? second.id with
  | some ua, some ub =>
      some (if ub < ua then .gt else if ua < ub then .lt else .eq)
  | _, _ => none

/-- `RealCardinalVoter` from real_cardinal_voter.rs. -/
structure RealCardinalVoter where
  range : ℕ
  cardinalBallot : List ℕ
  approvalBallot : Option (List CandidateID)
  ordinalEqualBallot : List (List CandidateID)
  ordinalBallot : List CandidateID

/-- The distinct score values of a ballot in descending order; used to model
the grouping of `RealCardinalVoter::new`, whose HashMap iteration order is
erased by the final sort on the (distinct) scores. -/
def distinctScoresDesc (ballot : List ℕ) : List ℕ :=
  (ballot.dedup).insertionSort (fun a b => b ≤ a)

/-- `RealCardinalVoter::new`: derive the approval ballot (only when
`range == 1`: the candidates rated exactly 1), the strict ordinal ballot
(descending score, ties by the tie-breaker on candidate indices), and the
ordinal-equal ballot (one group per distinct score, descending; within a
group, candidates in index order, their HashMap insertion order). -/
def RealCardinalVoter.new (range : ℕ) (ballot : List ℕ) (tb : TB) : RealCardinalVoter :=
  let approvalBallot := if range = 1 then
      some ((ballot.enum.filter (fun p => p.2 = 1)).map (fun p => CandidateID.mk p.1))
    else none
  let numCandidates := ballot.length
  let ordinalBallot := ((List.range numCandidates).map CandidateID.mk).insertionSort
    (fun a b => ((compare (ballot.getD b.id 0) (ballot.getD a.id 0)).then
      (tb a.id b.id)) ≠ .gt)
  let ordinalEqualBallot := (distinctScoresDesc ballot).map
    (fun s => (ballot.enum.filter (fun p => p.2 = s)).map (fun p => CandidateID.mk p.1))
  { range := range
    cardinalBallot := ballot
    approvalBallot := approvalBallot
    ordinalEqualBallot := ordinalEqualBallot
    ordinalBallot := ordinalBallot }

/-- `RealCardinalVoter::cast_approval_ballot`: the stored ballot if one was
derived at construction, a panic (`none`) otherwise. -/
def RealCardinalVoter.cast_approval_ballot (v : RealCardinalVoter) :
    Option (List CandidateID) :=
  v.approvalBallot

/-- `RealCardinalVoter::cast_cardinal_ballot`: panics unless asked at exactly
the range the voter was built with. -/
def RealCardinalVoter.cast_cardinal_ballot (v : RealCardinalVoter) (range : ℕ) :
    Option (List ℕ) :=
  if range = v.range then some v.cardinalBallot else none

/-! ### Election methods (election_methods.rs) -/

/-- `sort_candidates_by_vec`: sort candidates descending on `v`-entry, the
tie-breaker applied to the *reversed* pair `(b, a)` as in the source
comparator `v[b].partial_cmp(&v[a]).then(tie_breaker(&b, &a))`. -/
def sortCandidatesByVec (candidates : List CandidateID) (v : List ℕ) (tb : TB) :
    List CandidateID :=
  candidates.insertionSort
    (fun a b => ((compare (v.getD b.id 0) (v.getD a.id 0)).then (tb b.id a.id)) ≠ .gt)

/-- The candidate list `(0..num_candidates).map(CandidateID)`. -/
def candidateList (n : ℕ) : List CandidateID := (List.range n).map CandidateID.mk

/-- `plurality_driver`: one vote per voter for the head of their ordinal
ballot (`ballot[0]`, panicking on an empty ballot), candidates sorted
descending on the tally.  The guard models the panic of
`vote_totals[choice]` on an out-of-range head. -/
def pluralityDriver (voters : List HonestVoter) (n : ℕ) (tb : TB) :
    Option (List CandidateID) := do
  let choices ← voters.mapM (fun v => v.cachedOrdinalVote.head?)
  let ids := choices.map CandidateID.id
  if ids.all (· < n) then
    let voteTotals := (List.range n).map (fun c => ids.count c)
    some (sortCandidatesByVec (candidateList n) voteTotals tb)
  else none

/-- `score_driver`: per-candidate sum of each voter's cardinal rating
(`vote_totals[id] += score` over `ballot.enumerate()`), then the same sort.
The guard models the panic when a ballot has an entry at index ≥ n. -/
def scoreDriver (voters : List HonestVoter) (n : ℕ) (tb : TB) (range : ℕ) :
    Option (List CandidateID) :=
  let ballots := voters.map (fun v => v.cardinalBallot range)
  if ballots.all (fun b => b.length ≤ n) then
    let voteTotals := (List.range n).map (fun c => (ballots.map (fun b => b.getD c 0)).sum)
    some (sortCandidatesByVec (candidateList n) voteTotals tb)
  else none

/-- `approval_driver`: per-candidate count of approvals
(`approval_count[id] += 1` per ballot entry), then the same sort.  The guard
models the panic on an approval entry with index ≥ n. -/
def approvalDriver (voters : List HonestVoter) (n : ℕ) (tb : TB) :
    Option (List CandidateID) :=
  let ballots := voters.map (fun v => v.cachedApprovalBallot)
  if ballots.all (fun b => b.all (fun c => c.id < n)) then
    let counts := (List.range n).map (fun c => (ballots.map
      (fun b => b.count (CandidateID.mk c))).sum)
    some (sortCandidatesByVec (candidateList n) counts tb)
  else none

/-- `honest_runoff_driver`: two counters tallied from each voter's
`honest_preference(first, second)` (`Greater` votes for `first`,
`Less` for `second`, `Equal` for neither); the winner is selected by
`(0..2).max_by(totals cmp then tie_breaker)` — note the tie-breaker is
applied to the positional indices 0 and 1, and `max_by` keeps the last of
equal maxima.  The final catch-all panic arm of the source `match` is the
final `none` here (unreachable). -/
def honestRunoffDriver (voters : List HonestVoter) (tb : TB)
    (first second : CandidateID) : Option CandidateID := do
  let prefs ← voters.mapM (fun v => v.honest_preference first second)
  let voteTotals := [prefs.count .gt, prefs.count .lt]
  match maxByLast
      (fun u1 u2 => (compare (voteTotals.getD u1 0) (voteTotals.getD u2 0)).then (tb u1 u2))
      [0, 1] with
  | some 0 => some first
  | some 1 => some second
  | _ => none

/-- The score-stage totals of `star_driver`: the source zips each ballot with
the running totals (`ballot.iter().zip(scores.iter_mut())`), so a ballot
shorter than `n` contributes only to its prefix and longer ballots are
truncated — no panic, unlike `score_driver`. -/
def starScoreTotals (ballots : List (List ℕ)) (n : ℕ) : List ℕ :=
  (List.range n).map (fun c => (ballots.map (fun b => b.getD c 0)).sum)

/-- The score-stage candidate ranking of `star_driver`. -/
def starScoreRanking (voters : List HonestVoter) (n : ℕ) (tb : TB) (range : ℕ) :
    List CandidateID :=
  sortCandidatesByVec (candidateList n)
    (starScoreTotals (voters.map (fun v => v.cardinalBallot range)) n) tb

/-- `star_driver`, modelled exactly as written in the source, including its
slips: `first_index`/`second_index` are bound from `candidates[0]` and
`candidates[1]` but never used — the per-ballot comparison indexes each
ballot at the *running counters* `first` and `second` (`ballot[first]`,
`ballot[second]`), the tie-breaker is applied to the two rating values
(`none` models the `panic!` on `Equal`), and the final `else if` repeats the
condition `second < first`, leaving the swap branch dead. -/
def starDriver (voters : List HonestVoter) (n : ℕ) (tb : TB) (range : ℕ) :
    Option (List CandidateID) := do
  let ballots := voters.map (fun v => v.cardinalBallot range)
  let candidates := starScoreRanking voters n tb range
  let _firstIndex ← candidates.get? 0
  let _secondIndex ← candidates.get? 1
  let fs ← ballots.foldlM
    (fun (p : ℕ × ℕ) ballot => do
      let bf ← ballot.get? p.1
      let bs ← ballot.get? p.2
      if bs < bf then pure (p.1 + 1, p.2)
      else if bf < bs then pure (p.1, p.2 + 1)
      else match tb bf bs with
        | .lt => pure (p.1, p.2 + 1)
        | .eq => none
        | .gt => pure (p.1 + 1, p.2))
    (0, 0)
  if fs.2 < fs.1 then some candidates
  else if fs.2 < fs.1 then some (swap01 candidates)
  else match tb fs.1 fs.2 with
    | .lt => some (swap01 candidates)
    | .eq => none
    | .gt => some candidates

/-- `ElectionMethods::plurality`. -/
def plurality (voters : List HonestVoter) (n : ℕ) (tb : TB) : Option (List CandidateID) :=
  pluralityDriver voters n tb

/-- `ElectionMethods::fptp_runoff`: plurality ranking, then an honest
head-to-head between the top two, swapping positions 0 and 1 if the
second-placed candidate wins it. -/
def fptp_runoff (voters : List HonestVoter) (n : ℕ) (tb : TB) :
    Option (List CandidateID) := do
  let ranking ← pluralityDriver voters n tb
  let c0 ← ranking.get? 0
  let c1 ← ranking.get? 1
  let winner ← honestRunoffDriver voters tb c0 c1
  if winner = c1 then some (swap01 ranking) else some ranking

/-- `ElectionMethods::contingent_vote`: plurality ranking from the ordinal
ballots, then a simulated runoff crediting, per ballot, whichever of the top
two appears first in preference order; ties resolved by the tie-breaker on
the two candidate indices, `Equal` being a panic (`none`). -/
def contingent_vote (voters : List HonestVoter) (n : ℕ) (tb : TB) :
    Option (List CandidateID) := do
  let ballots := voters.map (fun v => v.cachedOrdinalVote)
  let tops ← ballots.mapM (fun b => b.head?)
  let ids := tops.map CandidateID.id
  if ids.all (· < n) then
    let voteTotals := (List.range n).map (fun c => ids.count c)
    let candidates := sortCandidatesByVec (candidateList n) voteTotals tb
    let firstC ← candidates.get? 0
    let secondC ← candidates.get? 1
    let votes := ballots.foldl
      (fun (p : ℕ × ℕ) ballot =>
        match ballot.find? (fun c => c = firstC || c = secondC) with
        | some c => if c = firstC then (p.1 + 1, p.2) else (p.1, p.2 + 1)
        | none => p)
      (0, 0)
    if votes.2 < votes.1 then some candidates
    else if votes.1 < votes.2 then some (swap01 candidates)
    else match tb firstC.id secondC.id with
      | .lt => some (swap01 candidates)
      | .eq => none
      | .gt => some candidates
  else none

/-- `ElectionMethods::approval`. -/
def approval (voters : List HonestVoter) (n : ℕ) (tb : TB) : Option (List CandidateID) :=
  approvalDriver voters n tb

/-- `ElectionMethods::approval_runoff`. -/
def approval_runoff (voters : List HonestVoter) (n : ℕ) (tb : TB) :
    Option (List CandidateID) := do
  let ranking ← approvalDriver voters n tb
  let c0 ← ranking.get? 0
  let c1 ← ranking.get? 1
  let winner ← honestRunoffDriver voters tb c0 c1
  if winner = c1 then some (swap01 ranking) else some ranking

/-- `ElectionMethods::score_5`. -/
def score_5 (voters : List HonestVoter) (n : ℕ) (tb : TB) : Option (List CandidateID) :=
  scoreDriver voters n tb 5

/-- `ElectionMethods::score_10`. -/
def score_10 (voters : List HonestVoter) (n : ℕ) (tb : TB) : Option (List CandidateID) :=
  scoreDriver voters n tb 10

/-- `ElectionMethods::score_100`. -/
def score_100 (voters : List HonestVoter) (n : ℕ) (tb : TB) : Option (List CandidateID) :=
  scoreDriver voters n tb 100

/-- The shared shape of the three `score_k_runoff` methods. -/
def scoreRunoffDriver (voters : List HonestVoter) (n : ℕ) (tb : TB) (range : ℕ) :
    Option (List CandidateID) := do
  let scores ← scoreDriver voters n tb range
  let c0 ← scores.get? 0
  let c1 ← scores.get? 1
  let winner ← honestRunoffDriver voters tb c0 c1
  if winner = c1 then some (swap01 scores) else some scores

/-- `ElectionMethods::score_5_runoff`. -/
def score_5_runoff (voters : List HonestVoter) (n : ℕ) (tb : TB) :
    Option (List CandidateID) :=
  scoreRunoffDriver voters n tb 5

/-- `ElectionMethods::score_10_runoff`. -/
def score_10_runoff (voters : List HonestVoter) (n : ℕ) (tb : TB) :
    Option (List CandidateID) :=
  scoreRunoffDriver voters n tb 10

/-- `ElectionMethods::score_100_runoff`. -/
def score_100_runoff (voters : List HonestVoter) (n : ℕ) (tb : TB) :
    Option (List CandidateID) :=
  scoreRunoffDriver voters n tb 100

/-- `ElectionMethods::star_5`. -/
def star_5 (voters : List HonestVoter) (n : ℕ) (tb : TB) : Option (List CandidateID) :=
  starDriver voters n tb 5

/-- `ElectionMethods::star_10`. -/
def star_10 (voters : List HonestVoter) (n : ℕ) (tb : TB) : Option (List CandidateID) :=
  starDriver voters n tb 10

/-- `ElectionMethods::star_100`. -/
def star_100 (voters : List HonestVoter) (n : ℕ) (tb : TB) : Option (List CandidateID) :=
  starDriver voters n tb 100

/-! ### Instant-runoff voting -/

/-- One round's loser: filter the enumerated tallies to candidates not yet
eliminated, then `min_by` on the comparator
`a.partial_cmp(b).then(tie_breaker(a, b))` — both arguments being the *tally
values* — keeping the first of equal minima. -/
def roundLoser (tb : TB) (tallies : List ℕ) (elim : List ℕ) : Option ℕ :=
  (minByFirst (fun p q => (compare p.2 q.2).then (tb p.2 q.2))
    (tallies.enum.filter (fun p => p.1 ∉ elim))).map (·.1)

/-- The ballot-advancing step of each irv round: every ballot is popped past
already-eliminated leading entries (`ballot.pop_front()` in the `while let`
of the source). -/
def irvAdvance (elim : List ℕ) (ballots : List (List CandidateID)) :
    List (List CandidateID) :=
  ballots.map (fun b => b.dropWhile (fun c => c.id ∈ elim))

/-- The surviving fronts of the advanced ballots: each non-exhausted ballot
contributes its current first entry (exhausted ballots cast no vote). -/
def irvFronts (ballots : List (List CandidateID)) : List ℕ :=
  (ballots.filterMap List.head?).map CandidateID.id

/-- The round's plurality tallies: `plurality[id] += 1` per surviving front. -/
def irvTallies (n : ℕ) (fronts : List ℕ) : List ℕ :=
  (List.range n).map (fun c => fronts.count c)

/-- One irv round as a state transformer on (ballots, elimination log):
advance every ballot, tally the surviving fronts (the guard models the
`plurality[id]` panic on an out-of-range id), and eliminate the round loser
(`none` models the `unwrap` panic when no candidate remains). -/
def irvRound (tb : TB) (n : ℕ) (st : List (List CandidateID) × List ℕ) :
    Option (List (List CandidateID) × List ℕ) :=
  if (irvFronts (irvAdvance st.2 st.1)).all (· < n) then
    match roundLoser tb (irvTallies n (irvFronts (irvAdvance st.2 st.1))) st.2 with
    | none => none
    | some loser => some (irvAdvance st.2 st.1, st.2 ++ [loser])
  else none

/-- The body of `ElectionMethods::irv`'s `loop`, with explicit fuel (the
loop provably needs at most `n + 1` iterations).  Each iteration performs
one `irvRound` and then either terminates — once `num_candidates - 1`
candidates are eliminated, the surviving winner is appended and the log
reversed — or resets the tallies and continues with the advanced ballots. -/
def irvLoop (tb : TB) (n : ℕ) :
    ℕ → List (List CandidateID) → List ℕ → Option (List CandidateID)
  | 0, _, _ => none
  | fuel + 1, ballots, elimOrd =>
    match irvRound tb n (ballots, elimOrd) with
    | none => none
    | some st =>
      if st.2.length = n - 1 then
        match (List.range n).find? (fun i => i ∉ st.2) with
        | none => none
        | some winner => some (((st.2 ++ [winner]).map CandidateID.mk).reverse)
      else irvLoop tb n fuel st.1 st.2

/-- `ElectionMethods::irv`. -/
def irv (voters : List HonestVoter) (n : ℕ) (tb : TB) : Option (List CandidateID) :=
  irvLoop tb n (n + 2) (voters.map (fun v => v.cachedOrdinalVote)) []

/-- `k` successive irv rounds (the round-iteration view of the loop). -/
def irvRounds (tb : TB) (n : ℕ) :
    ℕ → List (List CandidateID) × List ℕ → Option (List (List CandidateID) × List ℕ)
  | 0, st => some st
  | k + 1, st => (irvRound tb n st).bind (irvRounds tb n k)

/-! ### Fixtures (the repository's unit-test populations and small inputs) -/

/-- A `majority_election()` voter (`HonestVoter::new(utilities, scales, Mean)`). -/
def mkMeanVoter (u : List ℚ) (s : Bool) : HonestVoter := HonestVoter.new u s .Mean

/-- The `majority_election()` fixture: three honest voters over 3 candidates. -/
def majorityVoters : List HonestVoter :=
  [mkMeanVoter [1/10, 4/10, 6/10] true,
   mkMeanVoter [5/10, 4/10, 8/10] true,
   mkMeanVoter [3/10, 7/10, 2/10] false]

/-- The `runoff_differs()` fixture: 9 voters split 4/3/2 by top choice. -/
def runoffVoters : List HonestVoter :=
  [mkMeanVoter [1/10, 4/10, 6/10] true,
   mkMeanVoter [5/10, 4/10, 8/10] true,
   mkMeanVoter [5/10, 4/10, 8/10] true,
   mkMeanVoter [5/10, 4/10, 8/10] true,
   mkMeanVoter [3/10, 7/10, 2/10] false,
   mkMeanVoter [3/10, 7/10, 2/10] false,
   mkMeanVoter [3/10, 7/10, 2/10] false,
   mkMeanVoter [8/10, 6/10, 1/10] false,
   mkMeanVoter [8/10, 6/10, 1/10] false]

/-- A single honest voter strictly preferring candidate 0 to candidate 1. -/
def prefersFirstVoter : HonestVoter := HonestVoter.new [1, 0] false (.Preset 0)

/-- A single honest voter strictly preferring candidate 1 to candidate 0. -/
def prefersSecondVoter : HonestVoter := HonestVoter.new [0, 1] false (.Preset 0)

/-- A one-candidate voter for the single-candidate panic fixtures. -/
def oneCandidateVoter : HonestVoter := HonestVoter.new [1/2] false .Mean

/-- The reversed index-order tie-breaker (a decisive total order). -/
def revCmpTB : TB := fun a b => compare b a

/-- A voter carrying an arbitrary (possibly partial) cached ordinal ballot:
`irv` reads nothing of a voter but `cast_ordinal_ballot`, and the source's
`RealOrdinalVoter` supplies exactly such truncated ballots. -/
def mkBallotVoter (b : List CandidateID) : HonestVoter :=
  { utilities := []
    scales := false
    thresholdBehavior := .Preset 0
    cachedApprovalBallot := []
    cachedOrdinalVote := b
    cachedOrdinalEqualVote := []
    cachedScaledUtilities := none
    cachedCardinalBallots := [] }

/-- A four-voter population over 3 candidates in which the first voter's
partial ballot `[0]` exhausts after candidate 0 is eliminated in round one,
so that voter casts no vote in round two. -/
def partialBallotVoters : List HonestVoter :=
  [mkBallotVoter [⟨0⟩],
   mkBallotVoter [⟨1⟩, ⟨2⟩],
   mkBallotVoter [⟨1⟩, ⟨2⟩],
   mkBallotVoter [⟨2⟩, ⟨1⟩]]

/-! ### Claim-side definitions (worded from the spec, for refutation) -/

/-- Modelled from the spec (claim C2 wording): the STAR second stage in which
each ballot awards one point to whichever of the two *finalists*
(`candidates[0]`, `candidates[1]`) it rates strictly higher, equal ratings
awarding a point to neither, and the finalist with more points is swapped
into position 0 if not already there (the claim does not specify an
equal-points outcome, modelled as `none`). -/
def claimStarSecondStage (ballots : List (List ℕ)) (candidates : List CandidateID) :
    Option (List CandidateID) := do
  let c0 ← candidates.get? 0
  let c1 ← candidates.get? 1
  let pts := ballots.foldl
    (fun (p : ℕ × ℕ) b =>
      let r0 := b.getD c0.id 0
      let r1 := b.getD c1.id 0
      if r1 < r0 then (p.1 + 1, p.2)
      else if r0 < r1 then (p.1, p.2 + 1)
      else p)
    (0, 0)
  if pts.2 < pts.1 then some candidates
  else if pts.1 < pts.2 then some (swap01 candidates)
  else none

/-- Modelled from the spec (claim C5 wording): the head-to-head winner with
an equal-counter tie decided by the tie-breaker applied to the two
*candidate indices* `a.0` and `b.0`. -/
def claimHonestRunoffWinner (voters : List HonestVoter) (tb : TB)
    (a b : CandidateID) : Option CandidateID := do
  let prefs ← voters.mapM (fun v => v.honest_preference a b)
  let ta := prefs.count .gt
  let tbCount := prefs.count .lt
  if tbCount < ta then some a
  else if ta < tbCount then some b
  else match tb a.id b.id with
    | .gt => some a
    | .lt => some b
    | .eq => none

/-- Modelled from the spec (claim C4 wording): the irv round loser selected
by minimising on the tally and breaking tally ties by the tie-breaker
applied to the two *candidate indices*. -/
def claimIrvRoundLoser (tb : TB) (tallies : List ℕ) (elim : List ℕ) : Option ℕ :=
  (minByFirst (fun p q => (compare p.2 q.2).then (tb p.1 q.1))
    (tallies.enum.filter (fun p => p.1 ∉ elim))).map (·.1)

/-- The number of voters whose top strict-ordinal choice is candidate `c`
(the plurality tally of claim C7). -/
def topChoiceTally (voters : List HonestVoter) (c : ℕ) : ℕ :=
  ((voters.filterMap (fun v => v.cachedOrdinalVote.head?)).map CandidateID.id).count c

/-- Specification predicate for a left fold selecting the first minimum by
key `k`: either the accumulator already is one, or the result splits the
list with everything strictly earlier strictly larger. -/
def FirstMin {α : Type} (k : α → ℕ) (acc : α) (xs : List α) (r : α) : Prop :=
  (r = acc ∧ ∀ y ∈ xs, k acc ≤ k y) ∨
  (∃ pre suf, xs = pre ++ r :: suf ∧ (∀ y ∈ acc :: pre, k r < k y)
    ∧ (∀ y ∈ suf, k r ≤ k y))

/-! ## Helper lemmas -/

attribute [local semireducible] Rat.mul Rat.add Rat.inv Rat.sub

theorem foldl_pick_mem {α : Type} (f : α → α → α)
    (hf : ∀ a y, f a y = a ∨ f a y = y) :
    ∀ (xs : List α) (acc : α), xs.foldl f acc = acc ∨ xs.foldl f acc ∈ xs := by
  intro xs
  induction xs with
  | nil => intro acc; left; rfl
  | cons y ys ih =>
    intro acc
    rw [List.foldl_cons]
    rcases hf acc y with h | h <;> rw [h]
    · rcases ih acc with h' | h'
      · left; exact h'
      · right; exact List.mem_cons_of_mem _ h'
    · rcases ih y with h' | h'
      · right; rw [h']; exact List.mem_cons_self _ _
      · right; exact List.mem_cons_of_mem _ h'

theorem minByFirst_mem {α : Type} (c : α → α → Ordering) (l : List α) (m : α)
    (h : minByFirst c l = some m) : m ∈ l := by
  cases l with
  | nil => simp [minByFirst] at h
  | cons x xs =>
    simp only [minByFirst, Option.some.injEq] at h
    rcases foldl_pick_mem (fun a y => if c a y = .gt then y else a)
        (fun a y => by dsimp only; split <;> simp) xs x with h' | h'
    · rw [← h, h']; exact List.mem_cons_self _ _
    · rw [← h]; exact List.mem_cons_of_mem _ h'

theorem maxByLast_mem {α : Type} (c : α → α → Ordering) (l : List α) (m : α)
    (h : maxByLast c l = some m) : m ∈ l := by
  cases l with
  | nil => simp [maxByLast] at h
  | cons x xs =>
    simp only [maxByLast, Option.some.injEq] at h
    rcases foldl_pick_mem (fun a y => if c a y = .gt then a else y)
        (fun a y => by dsimp only; split <;> simp) xs x with h' | h'
    · rw [← h, h']; exact List.mem_cons_self _ _
    · rw [← h]; exact List.mem_cons_of_mem _ h'

theorem minByFirst_isSome {α : Type} (c : α → α → Ordering) (l : List α)
    (h : l ≠ []) : (minByFirst c l).isSome := by
  cases l with
  | nil => exact absurd rfl h
  | cons x xs => simp [minByFirst]

theorem maxByLast_isSome {α : Type} (c : α → α → Ordering) (l : List α)
    (h : l ≠ []) : (maxByLast c l).isSome := by
  cases l with
  | nil => exact absurd rfl h
  | cons x xs => simp [maxByLast]

theorem swap01_perm {α : Type} (l : List α) : (swap01 l).Perm l := by
  match l with
  | [] => exact List.Perm.refl _
  | [a] => exact List.Perm.refl _
  | a :: b :: rest => exact List.Perm.swap a b rest

theorem swap01_get?_of_two_le {α : Type} (l : List α) (i : ℕ) (h : 2 ≤ i) :
    (swap01 l).get? i = l.get? i := by
  match l with
  | [] => rfl
  | [a] => rfl
  | a :: b :: rest =>
    match i, h with
    | i + 2, _ => rfl

theorem mapM_option_eq_some {α β : Type} (f : α → Option β) :
    ∀ (l : List α) (res : List β), l.mapM f = some res → res = l.filterMap f := by
  intro l
  induction l with
  | nil => intro res h; simp only [List.mapM_nil, Option.pure_def, Option.some.injEq] at h
           simp [← h]
  | cons a l ih =>
    intro res h
    simp only [List.mapM_cons, Option.pure_def, Option.bind_eq_bind, Option.bind_eq_some,
      Option.some.injEq] at h
    obtain ⟨b, hb, res', hres', rfl⟩ := h
    simp [List.filterMap_cons, hb, ih res' hres']

theorem mapM_option_eq_filterMap {α β : Type} (f : α → Option β) :
    ∀ (l : List α), (∀ a ∈ l, (f a).isSome) → l.mapM f = some (l.filterMap f) := by
  intro l
  induction l with
  | nil => intro _; rfl
  | cons a l ih =>
    intro h
    obtain ⟨b, hb⟩ := Option.isSome_iff_exists.mp (h a (List.mem_cons_self _ _))
    have hrec := ih (fun x hx => h x (List.mem_cons_of_mem _ hx))
    rw [List.mapM_cons, hb, hrec]
    simp [List.filterMap_cons, hb]

/-! ## Claim C9: ballot caching idempotence and purity -/

theorem calculate_cardinal_utilities (v : HonestVoter) (range : ℕ) :
    (v.calculate_cardinal_ballot range).utilities = v.utilities := by
  unfold HonestVoter.calculate_cardinal_ballot
  split <;> rfl

theorem calculate_cardinal_lookup_isSome (v : HonestVoter) (range : ℕ) :
    ((v.calculate_cardinal_ballot range).cachedCardinalBallots.lookup range).isSome := by
  unfold HonestVoter.calculate_cardinal_ballot
  by_cases h : (v.cachedCardinalBallots.lookup range).isSome
  · simp [h]
  · simp [h, List.lookup]

theorem calculate_cardinal_cached (v : HonestVoter) (range : ℕ)
    (h : (v.cachedCardinalBallots.lookup range).isSome) :
    v.calculate_cardinal_ballot range = v := by
  unfold HonestVoter.calculate_cardinal_ballot
  simp [h]

/-- Claim C9: calling `cast_cardinal_ballot` twice on the same `HonestVoter`
with the same range returns the same ballot both times (the second call
returns the cached result of the first, which is present), and no
ballot-producing call (`cast_ordinal_ballot`, `cast_ordinal_equal_ballot`,
`cast_cardinal_ballot` at any range, `cast_approval_ballot`) ever changes
the voter's utilities vector. -/
theorem cardinal_cache_idempotent_and_pure (v : HonestVoter) (range r2 : ℕ) :
    ((v.cast_cardinal_ballot range).2.cast_cardinal_ballot range).1
        = (v.cast_cardinal_ballot range).1
    ∧ ((v.cast_cardinal_ballot range).1).isSome
    ∧ (v.cast_cardinal_ballot range).2.utilities = v.utilities
    ∧ ((v.cast_cardinal_ballot range).2.cast_cardinal_ballot range).2.utilities
        = v.utilities
    ∧ (v.cast_ordinal_ballot).2.utilities = v.utilities
    ∧ (v.cast_ordinal_equal_ballot).2.utilities = v.utilities
    ∧ (v.cast_approval_ballot).2.utilities = v.utilities
    ∧ (v.cast_cardinal_ballot r2).2.utilities = v.utilities := by
  have hsome := calculate_cardinal_lookup_isSome v range
  have hcached : (v.calculate_cardinal_ballot range).calculate_cardinal_ballot range
      = v.calculate_cardinal_ballot range :=
    calculate_cardinal_cached _ range hsome
  refine ⟨?_, ?_, ?_, ?_, rfl, rfl, rfl, ?_⟩
  · show ((v.calculate_cardinal_ballot range).calculate_cardinal_ballot
        range).cachedCardinalBallots.lookup range
      = (v.calculate_cardinal_ballot range).cachedCardinalBallots.lookup range
    rw [hcached]
  · exact hsome
  · exact calculate_cardinal_utilities v range
  · show ((v.calculate_cardinal_ballot range).calculate_cardinal_ballot
        range).utilities = v.utilities
    rw [hcached]; exact calculate_cardinal_utilities v range
  · exact calculate_cardinal_utilities v r2

/-! ## Claim C2: the STAR second stage (code bug) -/

/-- Claim C2 (code bug): on a single honest voter with utilities `[1, 0]`
over two candidates under the index-order tie-breaker, the claimed STAR
second stage awards the ballot's point to finalist 0 and returns the score
ranking `[0, 1]` unchanged, but `star_5` panics (`none`): the source
compares `ballot[first]` with `ballot[second]` where `first` and `second`
are the running point counters (both 0 at the first ballot), so the
tie-breaker is applied to two equal rating values and hits the
`Equal => panic!` arm. -/
theorem star_second_stage_failing_input :
    star_5 [prefersFirstVoter] 2 natCmpTB = none
    ∧ prefersFirstVoter.cardinalBallot 5 = [5, 0]
    ∧ starScoreRanking [prefersFirstVoter] 2 natCmpTB 5 = [⟨0⟩, ⟨1⟩]
    ∧ claimStarSecondStage [[5, 0]] [⟨0⟩, ⟨1⟩] = some [⟨0⟩, ⟨1⟩] := by
  refine ⟨by decide, by decide, by decide, by decide⟩

/-! ## Claim C5: the honest head-to-head driver (corrected) -/

/-- Claim C5, counterexample: with one voter preferring candidate 0 and one
preferring candidate 1 (an exact tie) and the index-order tie-breaker,
`honest_runoff_driver(CandidateID(1), CandidateID(0))` returns
`CandidateID(0)`, whereas the claim's rule — tie-breaker applied to the
candidate indices 1 and 0 — selects `CandidateID(1)`. -/
theorem honest_runoff_claim_counterexample :
    honestRunoffDriver [prefersFirstVoter, prefersSecondVoter] natCmpTB ⟨1⟩ ⟨0⟩
        = some ⟨0⟩
    ∧ claimHonestRunoffWinner [prefersFirstVoter, prefersSecondVoter] natCmpTB ⟨1⟩ ⟨0⟩
        = some ⟨1⟩ := by
  refine ⟨by decide, by decide⟩

theorem honestRunoffDriver_eq (voters : List HonestVoter) (tb : TB)
    (a b : CandidateID) (h : ∀ v ∈ voters, (v.honest_preference a b).isSome) :
    honestRunoffDriver voters tb a b =
      some (
        let prefs := voters.filterMap (fun v => v.honest_preference a b)
        if prefs.count .lt < prefs.count .gt then a
        else if prefs.count .gt < prefs.count .lt then b
        else if tb 0 1 = .gt then a else b) := by
  have hmax : ∀ (c : ℕ → ℕ → Ordering),
      maxByLast c [0, 1] = some (if c 0 1 = .gt then 0 else 1) := fun c => rfl
  unfold honestRunoffDriver
  rw [mapM_option_eq_filterMap _ _ h]
  set prefs := voters.filterMap (fun v => v.honest_preference a b) with hp
  simp only [Option.bind_eq_bind, Option.some_bind, hmax]
  have hgd0 : ([prefs.count .gt, prefs.count .lt].getD 0 0) = prefs.count .gt := rfl
  have hgd1 : ([prefs.count .gt, prefs.count .lt].getD 1 0) = prefs.count .lt := rfl
  by_cases h1 : prefs.count .lt < prefs.count .gt
  · have hcmp : compare (prefs.count .gt) (prefs.count .lt) = .gt :=
      Nat.compare_eq_gt.mpr h1
    simp [hgd0, hgd1, hcmp, Ordering.then, h1]
  · by_cases h2 : prefs.count .gt < prefs.count .lt
    · have hcmp : compare (prefs.count .gt) (prefs.count .lt) = .lt :=
        Nat.compare_eq_lt.mpr h2
      simp [hgd0, hgd1, hcmp, Ordering.then, h1, h2]
    · have heq : prefs.count .gt = prefs.count .lt :=
        Nat.le_antisymm (Nat.not_lt.mp h1) (Nat.not_lt.mp h2)
      have hcmp : compare (prefs.count .gt) (prefs.count .lt) = .eq :=
        Nat.compare_eq_eq.mpr heq
      by_cases h3 : tb 0 1 = .gt
      · simp [hgd0, hgd1, hcmp, Ordering.then, h1, h2, h3]
      · simp [hgd0, hgd1, hcmp, Ordering.then, h1, h2, h3]

/-- Claim C5 as amended: the honest head-to-head driver counts one vote for
`a` per voter whose `honest_preference(a, b)` is `Greater` and one for `b`
per `Less` (indifferent voters count for neither) and returns the candidate
with the larger counter; when the counters are equal the tie-breaker is
applied to the positional indices 0 and 1 of the two counters (not to the
candidate indices): `a` wins the tie exactly when `tie_breaker(&0, &1)` is
`Greater`. -/
theorem honest_runoff_driver_characterization (voters : List HonestVoter) (tb : TB)
    (a b : CandidateID) (h : ∀ v ∈ voters, (v.honest_preference a b).isSome) :
    honestRunoffDriver voters tb a b =
      some (
        let prefs := voters.filterMap (fun v => v.honest_preference a b)
        if prefs.count .lt < prefs.count .gt then a
        else if prefs.count .gt < prefs.count .lt then b
        else if tb 0 1 = .gt then a else b) :=
  honestRunoffDriver_eq voters tb a b h

/-- Witness for the amended C5 theorem at a concrete tied input. -/
theorem honest_runoff_driver_characterization_witness :
    honestRunoffDriver [prefersFirstVoter, prefersSecondVoter] natCmpTB ⟨0⟩ ⟨1⟩
      = some ⟨1⟩ :=
  (honest_runoff_driver_characterization [prefersFirstVoter, prefersSecondVoter]
    natCmpTB ⟨0⟩ ⟨1⟩ (by decide)).trans (by decide)

/-! ## Claim C8: approval non-emptiness (corrected) -/

/-- Claim C8, counterexample: a `RealCardinalVoter` built with range 1 and
the all-zero ballot over two candidates.  `cast_approval_ballot` succeeds
and returns the *empty* approval ballot: the range-1 constructor simply
collects the candidates rated 1 and has no top-choice fallback. -/
theorem real_cardinal_empty_approval :
    (RealCardinalVoter.new 1 [0, 0] natCmpTB).cast_approval_ballot = some [] := by
  decide

theorem exists_getD_ge_mean (u : List ℚ) (hne : u ≠ []) :
    ∃ i, i < u.length ∧ u.sum / (u.length : ℚ) ≤ u.getD i 0 := by
  have hlen : 0 < u.length := List.length_pos.mpr hne
  have hmem : u.maximum_of_length_pos hlen ∈ u := List.maximum_of_length_pos_mem hlen
  have hle : ∀ x ∈ u, x ≤ u.maximum_of_length_pos hlen := fun x hx =>
    List.le_maximum_of_length_pos_of_mem hx hlen
  have hsum : u.sum ≤ u.length • u.maximum_of_length_pos hlen :=
    List.sum_le_card_nsmul u _ hle
  rw [nsmul_eq_mul] at hsum
  have hmean : u.sum / (u.length : ℚ) ≤ u.maximum_of_length_pos hlen := by
    rw [div_le_iff₀ (by exact_mod_cast hlen)]
    linarith
  obtain ⟨i, hi, hgi⟩ := List.getElem_of_mem hmem
  refine ⟨i, hi, ?_⟩
  rw [List.getD_eq_getElem?_getD, List.getElem?_eq_getElem hi]
  simpa [hgi] using hmean

theorem generate_approval_ballot_ne_nil (u : List ℚ) (bound : ℚ) (hne : u ≠ []) :
    generate_approval_ballot u bound ≠ [] := by
  unfold generate_approval_ballot
  by_cases h : (((List.range u.length).filter
      (fun i => bound ≤ u.getD i 0)).map CandidateID.mk).isEmpty
  · rw [if_pos h]
    have henum : u.enum.map (fun p => (p.2, p.1)) ≠ [] := by
      simp only [ne_eq, List.map_eq_nil_iff, List.enum_eq_nil]
      exact hne
    obtain ⟨p, hp⟩ := Option.isSome_iff_exists.mp
      (maxByLast_isSome (fun p q => compare p.1 q.1) _ henum)
    have hmui : maxUtilityIndex u = some p.2 := by
      rw [maxUtilityIndex, hp]; rfl
    rw [hmui]
    simp
  · rw [if_neg h]
    intro hcon
    rw [hcon] at h
    exact h rfl

theorem honest_approval_ne_nil (u : List ℚ) (s : Bool)
    (thb : ApprovalThresholdBehavior) (hne : u ≠ []) :
    (HonestVoter.new u s thb).cachedApprovalBallot ≠ [] := by
  show (match thb with
    | .Function f => generate_approval_ballot u (f u)
    | .Mean =>
        ((List.range u.length).filter
          (fun i => u.sum / (u.length : ℚ) ≤ u.getD i 0)).map CandidateID.mk
    | .Preset bound => generate_approval_ballot u bound) ≠ []
  cases thb with
  | Function f => exact generate_approval_ballot_ne_nil u (f u) hne
  | Preset bound => exact generate_approval_ballot_ne_nil u bound hne
  | Mean =>
    obtain ⟨i, hi, hmean⟩ := exists_getD_ge_mean u hne
    have hfi : i ∈ (List.range u.length).filter
        (fun i => u.sum / (u.length : ℚ) ≤ u.getD i 0) :=
      List.mem_filter.mpr ⟨List.mem_range.mpr hi, by simpa using hmean⟩
    exact List.ne_nil_of_mem (List.mem_map_of_mem CandidateID.mk hfi)

/-- Claim C8 as amended: for every `HonestVoter` with at least one candidate
the approval ballot is non-empty under each threshold policy (`Preset` and
custom `Function` via the explicit top-choice fallback of
`generate_approval_ballot`; `Mean` because in the exact rational arithmetic
of this model some utility always reaches the mean — the `Mean` arm itself
has no fallback).  A `RealCardinalVoter` built with range 1 approves exactly
the candidates its ballot rates 1, a set that can be empty. -/
theorem approval_nonempty_amended :
    (∀ (u : List ℚ) (s : Bool) (thb : ApprovalThresholdBehavior), u ≠ [] →
      (HonestVoter.new u s thb).cachedApprovalBallot ≠ [])
    ∧ ∀ (ballot : List ℕ) (tb : TB),
        (RealCardinalVoter.new 1 ballot tb).cast_approval_ballot
          = some ((ballot.enum.filter (fun p => p.2 = 1)).map
              (fun p => CandidateID.mk p.1)) := by
  refine ⟨honest_approval_ne_nil, fun ballot tb => ?_⟩
  simp [RealCardinalVoter.new, RealCardinalVoter.cast_approval_ballot]

/-- Witness for the amended C8 theorem: the all-equal-utilities voter whose
mean equals every utility still approves everyone. -/
theorem approval_nonempty_amended_witness :
    (HonestVoter.new [1/10, 1/10, 1/10] false .Mean).cachedApprovalBallot ≠ [] :=
  approval_nonempty_amended.1 [1/10, 1/10, 1/10] false .Mean (by decide)

/-! ## Claim C4: the irv round loser (corrected) -/

theorem foldl_firstMin {α : Type} (c : α → α → Ordering) (k : α → ℕ)
    (hc : ∀ p q, c p q = .gt ↔ k q < k p) :
    ∀ (xs : List α) (acc : α),
      FirstMin k acc xs (xs.foldl (fun a y => if c a y = .gt then y else a) acc) := by
  intro xs
  induction xs with
  | nil => intro acc; left; exact ⟨rfl, by simp⟩
  | cons y ys ih =>
    intro acc
    rw [List.foldl_cons]
    by_cases hcy : c acc y = .gt
    · rw [if_pos hcy]
      have hylt : k y < k acc := (hc acc y).mp hcy
      rcases ih y with ⟨hr, hmin⟩ | ⟨pre, suf, hsplit, hlt, hle⟩
      · right
        refine ⟨[], ys, by rw [hr]; rfl, ?_, by rw [hr]; exact hmin⟩
        intro z hz
        rw [hr]
        rcases List.mem_cons.mp hz with rfl | hz'
        · exact hylt
        · simp at hz'
      · right
        refine ⟨y :: pre, suf, by rw [List.cons_append, ← hsplit], ?_, hle⟩
        intro z hz
        rcases List.mem_cons.mp hz with rfl | hz'
        · exact lt_trans (hlt y (List.mem_cons_self _ _)) hylt
        · exact hlt z hz'
    · rw [if_neg hcy]
      have hyge : k acc ≤ k y := Nat.not_lt.mp (fun hct => hcy ((hc acc y).mpr hct))
      rcases ih acc with ⟨hr, hmin⟩ | ⟨pre, suf, hsplit, hlt, hle⟩
      · left
        refine ⟨hr, ?_⟩
        intro z hz
        rcases List.mem_cons.mp hz with rfl | hz'
        · exact hyge
        · exact hmin z hz'
      · right
        refine ⟨y :: pre, suf, by rw [List.cons_append, ← hsplit], ?_, hle⟩
        intro z hz
        have hracc : k (List.foldl (fun a y => if c a y = .gt then y else a) acc ys)
            < k acc := hlt acc (List.mem_cons_self _ _)
        rcases List.mem_cons.mp hz with rfl | hz'
        · exact hracc
        · rcases List.mem_cons.mp hz' with rfl | hz''
          · exact lt_of_lt_of_le hracc hyge
          · exact hlt z (List.mem_cons_of_mem _ hz'')

theorem le_fst_of_mem_enumFrom {α : Type} :
    ∀ (l : List α) (n : ℕ) (p : ℕ × α), p ∈ l.enumFrom n → n ≤ p.1 := by
  intro l
  induction l with
  | nil => intro n p hp; simp [List.enumFrom] at hp
  | cons a l ih =>
    intro n p hp
    rcases List.mem_cons.mp hp with rfl | hp'
    · exact le_refl _
    · exact le_trans (Nat.le_succ n) (ih (n + 1) p hp')

theorem pairwise_fst_lt_enumFrom {α : Type} :
    ∀ (l : List α) (n : ℕ), (l.enumFrom n).Pairwise (fun p q => p.1 < q.1) := by
  intro l
  induction l with
  | nil => intro n; simp [List.enumFrom]
  | cons a l ih =>
    intro n
    refine List.Pairwise.cons ?_ (ih (n + 1))
    intro q hq
    exact lt_of_lt_of_le (Nat.lt_succ_self n) (le_fst_of_mem_enumFrom l (n + 1) q hq)

theorem pairwise_fst_lt_enum {α : Type} (l : List α) :
    l.enum.Pairwise (fun p q => p.1 < q.1) :=
  pairwise_fst_lt_enumFrom l 0

/-- Claim C4 as amended: in every irv round the eliminated candidate has
the minimum tally among non-eliminated candidates, but the tie-breaker is
applied to the two *tally values*, not the candidate indices; for any
tie-breaker that returns `Equal` on equal arguments (as every order-derived
tie-breaker does) a tally tie therefore falls through to `min_by`'s fold
order, which keeps the first of equal minima: the lowest-indexed minimal
non-eliminated candidate is eliminated. -/
theorem irv_round_loser_characterization (tb : TB) (tallies elim : List ℕ)
    (htb : ∀ x, tb x x = .eq) (l : ℕ) (h : roundLoser tb tallies elim = some l) :
    l < tallies.length ∧ l ∉ elim
    ∧ (∀ j, j < tallies.length → j ∉ elim → tallies.getD l 0 ≤ tallies.getD j 0)
    ∧ (∀ j, j < l → j ∉ elim → tallies.getD l 0 < tallies.getD j 0) := by
  classical
  unfold roundLoser at h
  obtain ⟨m, hm, hml⟩ := Option.map_eq_some'.mp h
  have hc : ∀ (p q : ℕ × ℕ),
      ((compare p.2 q.2).then (tb p.2 q.2) = .gt) ↔ q.2 < p.2 := by
    intro p q
    rcases Nat.lt_trichotomy p.2 q.2 with hlt | heq | hgt
    · simp [Nat.compare_eq_lt.mpr hlt, Ordering.then, Nat.lt_asymm hlt]
    · have hcc : compare q.2 q.2 = Ordering.eq := Nat.compare_eq_eq.mpr rfl
      simp [heq, hcc, Ordering.then, htb]
    · simp [Nat.compare_eq_gt.mpr hgt, Ordering.then, hgt]
  set L := tallies.enum.filter (fun p => p.1 ∉ elim) with hL
  have hpair : L.Pairwise (fun p q => p.1 < q.1) :=
    List.Pairwise.sublist (List.filter_sublist _) (pairwise_fst_lt_enum tallies)
  have hmem : m ∈ L := minByFirst_mem _ L m hm
  have hmemL : ∀ (p : ℕ × ℕ), p ∈ L ↔ (tallies[p.1]? = some p.2 ∧ p.1 ∉ elim) := by
    intro p
    rw [hL, List.mem_filter, List.mem_enum_iff_getElem?]
    simp
  have hmval : tallies[m.1]? = some m.2 := ((hmemL m).mp hmem).1
  have hmnotel : m.1 ∉ elim := ((hmemL m).mp hmem).2
  obtain ⟨hmlen, hmget⟩ := List.getElem?_eq_some.mp hmval
  have hDm : tallies.getD m.1 0 = m.2 := by
    rw [List.getD_eq_getElem?_getD, hmval]
    rfl
  have hget : ∀ j, j < tallies.length → tallies[j]? = some (tallies.getD j 0) := by
    intro j hj
    rw [List.getD_eq_getElem?_getD, List.getElem?_eq_getElem hj]
    rfl
  have hjmem : ∀ j, j < tallies.length → j ∉ elim → (j, tallies.getD j 0) ∈ L := by
    intro j hj hjel
    exact (hmemL (j, tallies.getD j 0)).mpr ⟨hget j hj, hjel⟩
  -- decompose L and apply the first-minimum fold lemma
  obtain ⟨x, xs, hLc⟩ : ∃ x xs, L = x :: xs := by
    cases hL2 : L with
    | nil => rw [hL2] at hm; simp [minByFirst] at hm
    | cons a as => exact ⟨a, as, rfl⟩
  have hm' : minByFirst (fun p q => (compare p.2 q.2).then (tb p.2 q.2)) (x :: xs)
      = some m := hLc ▸ hm
  have hfold : xs.foldl
      (fun a y => if (compare a.2 y.2).then (tb a.2 y.2) = .gt then y else a) x = m := by
    simp only [minByFirst, Option.some.injEq] at hm'
    exact hm'
  have hFM : FirstMin (fun p => p.2) x xs m := by
    rw [← hfold]
    exact foldl_firstMin _ _ hc xs x
  have hpairc : (x :: xs).Pairwise (fun (p q : ℕ × ℕ) => p.1 < q.1) := hLc ▸ hpair
  have hpair' : ∀ y ∈ xs, x.1 < y.1 := (List.pairwise_cons.mp hpairc).1
  have hxsPair : xs.Pairwise (fun p q => p.1 < q.1) := (List.pairwise_cons.mp hpairc).2
  subst hml
  refine ⟨hmlen, hmnotel, ?_, ?_⟩
  · -- minimality of the tally
    intro j hj hjel
    have hjL : (j, tallies.getD j 0) ∈ x :: xs := by
      rw [← hLc]; exact hjmem j hj hjel
    rw [hDm]
    rcases hFM with ⟨rfl, hmin⟩ | ⟨pre, suf, hsplit, hlt2, hle2⟩
    · rcases List.mem_cons.mp hjL with hjx | hjxs
      · exact le_of_eq (congrArg Prod.snd hjx).symm
      · exact hmin _ hjxs
    · rcases List.mem_cons.mp hjL with hjx | hjxs
      · exact le_of_lt (lt_of_lt_of_eq (hlt2 x (List.mem_cons_self _ _))
          (congrArg Prod.snd hjx).symm)
      · rw [hsplit] at hjxs
        rcases List.mem_append.mp hjxs with hpre | hms
        · exact le_of_lt (hlt2 _ (List.mem_cons_of_mem _ hpre))
        · rcases List.mem_cons.mp hms with hjm | hsuf
          · exact le_of_eq (congrArg Prod.snd hjm).symm
          · exact hle2 _ hsuf
  · -- least index among equal minima
    intro j hjl hjel
    have hjlen : j < tallies.length := lt_trans hjl hmlen
    have hjL : (j, tallies.getD j 0) ∈ x :: xs := by
      rw [← hLc]; exact hjmem j hjlen hjel
    rw [hDm]
    rcases hFM with ⟨rfl, _⟩ | ⟨pre, suf, hsplit, hlt2, hle2⟩
    · rcases List.mem_cons.mp hjL with hjx | hjxs
      · exact absurd (congrArg Prod.fst hjx) (by simp [Nat.ne_of_lt hjl])
      · exact absurd (hpair' _ hjxs) (by simp [Nat.lt_asymm hjl])
    · have hsufgt : ∀ y ∈ suf, m.1 < y.1 := by
        have hxs' : (pre ++ m :: suf).Pairwise (fun p q => p.1 < q.1) :=
          hsplit ▸ hxsPair
        exact (List.pairwise_cons.mp (List.pairwise_append.mp hxs').2.1).1
      rcases List.mem_cons.mp hjL with hjx | hjxs
      · exact lt_of_lt_of_eq (hlt2 x (List.mem_cons_self _ _))
          (congrArg Prod.snd hjx).symm
      · rw [hsplit] at hjxs
        rcases List.mem_append.mp hjxs with hpre | hms
        · exact hlt2 _ (List.mem_cons_of_mem _ hpre)
        · rcases List.mem_cons.mp hms with hjm | hsuf
          · exact absurd (congrArg Prod.fst hjm) (by simp [Nat.ne_of_lt hjl])
          · exact absurd (hsufgt _ hsuf) (by simp [Nat.lt_asymm hjl])

/-- Witness for the amended C4 theorem: on tallies `[1, 1]` with nothing
eliminated and the index-order tie-breaker, the round loser is candidate 0,
whose tally is minimal. -/
theorem irv_round_loser_characterization_witness :
    roundLoser natCmpTB [1, 1] [] = some 0
    ∧ ([1, 1] : List ℕ).getD 0 0 ≤ ([1, 1] : List ℕ).getD 1 0 :=
  ⟨by decide,
    (irv_round_loser_characterization natCmpTB [1, 1] []
      (fun x => Nat.compare_eq_eq.mpr rfl) 0 (by decide)).2.2.1 1 (by decide)
      (by decide)⟩

/-- Claim C4, counterexample: two honest voters with opposite preferences
over two candidates under the *reversed* index-order tie-breaker.  Round-1
tallies are `[1, 1]`; the claim's rule (tie decided by the tie-breaker on
the candidate indices) eliminates candidate 1, but the code applies the
tie-breaker to the equal tally values (`Equal`), keeps the first minimum and
eliminates candidate 0, so irv returns `[1, 0]` where the claim's rule
yields `[0, 1]`. -/
theorem irv_tiebreak_counterexample :
    roundLoser revCmpTB [1, 1] [] = some 0
    ∧ claimIrvRoundLoser revCmpTB [1, 1] [] = some 1
    ∧ irvRound revCmpTB 2
        ([prefersFirstVoter.cachedOrdinalVote, prefersSecondVoter.cachedOrdinalVote], [])
        = some ([[⟨0⟩, ⟨1⟩], [⟨1⟩, ⟨0⟩]], [0])
    ∧ irv [prefersFirstVoter, prefersSecondVoter] 2 revCmpTB = some [⟨1⟩, ⟨0⟩] := by
  refine ⟨by decide, by decide, by decide, by decide⟩

/-! ## Sorting lemmas shared by the drivers -/

theorem sortCandidatesByVec_perm (candidates : List CandidateID) (v : List ℕ) (tb : TB) :
    (sortCandidatesByVec candidates v tb).Perm candidates :=
  List.perm_insertionSort _ _

theorem candidateList_length (n : ℕ) : (candidateList n).length = n := by
  simp [candidateList]

theorem candidateID_mk_injective : Function.Injective CandidateID.mk :=
  fun _ _ h => congrArg CandidateID.id h

theorem candidateList_nodup (n : ℕ) : (candidateList n).Nodup :=
  List.Nodup.map candidateID_mk_injective (List.nodup_range n)

theorem mem_candidateList (n : ℕ) (c : CandidateID) :
    c ∈ candidateList n ↔ c.id < n := by
  constructor
  · intro h
    obtain ⟨a, ha, rfl⟩ := List.mem_map.mp h
    exact List.mem_range.mp ha
  · intro h
    exact List.mem_map.mpr ⟨c.id, List.mem_range.mpr h, rfl⟩

/-- The comparator of `sort_candidates_by_vec`, spelled as the descending
lexicographic condition it encodes. -/
theorem sortRel_iff (v : List ℕ) (tb : TB) (a b : CandidateID) :
    (((compare (v.getD b.id 0) (v.getD a.id 0)).then (tb b.id a.id)) ≠ .gt) ↔
      (v.getD b.id 0 < v.getD a.id 0
        ∨ (v.getD a.id 0 = v.getD b.id 0 ∧ tb b.id a.id ≠ .gt)) := by
  generalize v.getD b.id 0 = vb
  generalize v.getD a.id 0 = va
  rcases Nat.lt_trichotomy vb va with hlt | heq | hgt
  · rw [Nat.compare_eq_lt.mpr hlt]
    simp [Ordering.then, hlt]
  · rw [Nat.compare_eq_eq.mpr heq]
    simp [Ordering.then, heq]
  · rw [Nat.compare_eq_gt.mpr hgt]
    simp [Ordering.then, Nat.lt_asymm hgt, Nat.ne_of_lt hgt]

theorem natCmpTB_gt_iff_lt (x y : ℕ) : natCmpTB x y = .gt ↔ natCmpTB y x = .lt := by
  unfold natCmpTB
  rw [Nat.compare_eq_gt, Nat.compare_eq_lt]

theorem natCmpTB_not_gt_trans (x y z : ℕ) (h1 : natCmpTB x y ≠ .gt)
    (h2 : natCmpTB y z ≠ .gt) : natCmpTB x z ≠ .gt := by
  unfold natCmpTB at h1 h2 ⊢
  simp only [ne_eq, Nat.compare_eq_gt] at h1 h2 ⊢
  omega

theorem natCmpTB_refl_eq (x : ℕ) : natCmpTB x x = .eq := Nat.compare_eq_eq.mpr rfl

/-- The sorted output of `sort_candidates_by_vec` is pairwise ordered
descending on the key, with key ties pairwise ordered by the tie-breaker
(applied in the reversed sense of the source comparator), provided the
tie-breaker is an order (antisymmetric and transitive). -/
theorem sortCandidatesByVec_sorted (candidates : List CandidateID) (v : List ℕ) (tb : TB)
    (h1 : ∀ x y : ℕ, tb x y = .gt ↔ tb y x = .lt)
    (h2 : ∀ x y z : ℕ, tb x y ≠ .gt → tb y z ≠ .gt → tb x z ≠ .gt) :
    (sortCandidatesByVec candidates v tb).Pairwise (fun a b =>
      v.getD b.id 0 < v.getD a.id 0
        ∨ (v.getD a.id 0 = v.getD b.id 0 ∧ tb b.id a.id ≠ .gt)) := by
  have htot : IsTotal CandidateID (fun a b =>
      ((compare (v.getD b.id 0) (v.getD a.id 0)).then (tb b.id a.id)) ≠ .gt) := by
    refine ⟨fun a b => ?_⟩
    rw [sortRel_iff, sortRel_iff]
    rcases Nat.lt_trichotomy (v.getD b.id 0) (v.getD a.id 0) with h | h | h
    · exact Or.inl (Or.inl h)
    · by_cases htb2 : tb b.id a.id = .gt
      · refine Or.inr (Or.inr ⟨h, ?_⟩)
        rw [(h1 b.id a.id).mp htb2]
        simp
      · exact Or.inl (Or.inr ⟨h.symm, htb2⟩)
    · exact Or.inr (Or.inl h)
  have htrans : IsTrans CandidateID (fun a b =>
      ((compare (v.getD b.id 0) (v.getD a.id 0)).then (tb b.id a.id)) ≠ .gt) := by
    refine ⟨fun a b c hab hbc => ?_⟩
    rw [sortRel_iff] at hab hbc ⊢
    rcases hab with hab1 | ⟨haeq, hatb⟩ <;> rcases hbc with hbc1 | ⟨hbeq, hbtb⟩
    · exact Or.inl (lt_trans hbc1 hab1)
    · exact Or.inl (lt_of_eq_of_lt hbeq.symm hab1)
    · exact Or.inl (lt_of_lt_of_eq hbc1 haeq.symm)
    · exact Or.inr ⟨haeq.trans hbeq, h2 c.id b.id a.id hbtb hatb⟩
  have hsorted := @List.sorted_insertionSort CandidateID
    (fun a b => ((compare (v.getD b.id 0) (v.getD a.id 0)).then (tb b.id a.id)) ≠ .gt)
    _ htot htrans candidates
  refine List.Pairwise.imp ?_ hsorted
  intro a b hab
  exact (sortRel_iff v tb a b).mp hab

/-! ## Driver inversion lemmas -/

theorem pluralityDriver_inv (voters : List HonestVoter) (n : ℕ) (tb : TB)
    (r : List CandidateID) (h : pluralityDriver voters n tb = some r) :
    ∃ choices, voters.mapM (fun v => v.cachedOrdinalVote.head?) = some choices
      ∧ ((choices.map CandidateID.id).all (· < n)) = true
      ∧ r = sortCandidatesByVec (candidateList n)
          ((List.range n).map (fun c => (choices.map CandidateID.id).count c)) tb := by
  unfold pluralityDriver at h
  revert h
  cases hmm : voters.mapM (fun v => v.cachedOrdinalVote.head?) with
  | none => intro h; simp at h
  | some choices =>
    intro h
    simp only [Option.bind_eq_bind, Option.some_bind] at h
    by_cases hall : ((choices.map CandidateID.id).all (fun x => decide (x < n))) = true
    · rw [if_pos hall] at h
      exact ⟨choices, rfl, hall, (Option.some_inj.mp h).symm⟩
    · rw [if_neg hall] at h
      cases h

theorem scoreDriver_inv (voters : List HonestVoter) (n : ℕ) (tb : TB) (range : ℕ)
    (r : List CandidateID) (h : scoreDriver voters n tb range = some r) :
    r = sortCandidatesByVec (candidateList n)
        ((List.range n).map (fun c =>
          ((voters.map (fun v => v.cardinalBallot range)).map (fun b => b.getD c 0)).sum))
        tb := by
  unfold scoreDriver at h
  by_cases hall : ((voters.map (fun v => v.cardinalBallot range)).all
      (fun b => decide (b.length ≤ n))) = true
  · rw [if_pos hall] at h
    exact (Option.some_inj.mp h).symm
  · rw [if_neg hall] at h
    cases h

theorem approvalDriver_inv (voters : List HonestVoter) (n : ℕ) (tb : TB)
    (r : List CandidateID) (h : approvalDriver voters n tb = some r) :
    r = sortCandidatesByVec (candidateList n)
        ((List.range n).map (fun c =>
          ((voters.map (fun v => v.cachedApprovalBallot)).map
            (fun b => b.count (CandidateID.mk c))).sum)) tb := by
  unfold approvalDriver at h
  by_cases hall : ((voters.map (fun v => v.cachedApprovalBallot)).all
      (fun b => b.all (fun c => decide (c.id < n)))) = true
  · rw [if_pos hall] at h
    exact (Option.some_inj.mp h).symm
  · rw [if_neg hall] at h
    cases h

/-! ## Claim C7: the plurality driver -/

/-- Claim C7: plurality tallies, per candidate, the number of voters whose
top strict-ordinal choice is that candidate, and returns all candidates (a
permutation of `CandidateID(0..n)`) pairwise sorted descending on that tally
with equal tallies ordered by the (order-like) tie-breaker; on the three
`majority_election()` voters over 3 candidates with the index-order
tie-breaker it returns `[2, 1, 0]`. -/
theorem plurality_tally_sorted_and_fixture (voters : List HonestVoter) (n : ℕ) (tb : TB)
    (h1 : ∀ x y : ℕ, tb x y = .gt ↔ tb y x = .lt)
    (h2 : ∀ x y z : ℕ, tb x y ≠ .gt → tb y z ≠ .gt → tb x z ≠ .gt) :
    (∀ r, plurality voters n tb = some r →
      r.Perm (candidateList n)
      ∧ r.Pairwise (fun a b =>
          topChoiceTally voters b.id < topChoiceTally voters a.id
          ∨ (topChoiceTally voters a.id = topChoiceTally voters b.id
              ∧ tb b.id a.id ≠ .gt)))
    ∧ plurality majorityVoters 3 natCmpTB = some [⟨2⟩, ⟨1⟩, ⟨0⟩] := by
  constructor
  · intro r hr
    obtain ⟨choices, hmm, hall, hreq⟩ := pluralityDriver_inv voters n tb r hr
    have hchoices : choices = voters.filterMap (fun v => v.cachedOrdinalVote.head?) :=
      mapM_option_eq_some _ voters choices hmm
    have hperm : r.Perm (candidateList n) := hreq ▸ sortCandidatesByVec_perm _ _ _
    refine ⟨hperm, ?_⟩
    have hsorted := hreq ▸ sortCandidatesByVec_sorted (candidateList n)
      ((List.range n).map (fun c => (choices.map CandidateID.id).count c)) tb h1 h2
    refine List.Pairwise.imp_of_mem ?_ hsorted
    intro a b ha hb hab
    have haid : a.id < n := (mem_candidateList n a).mp (hperm.mem_iff.mp ha)
    have hbid : b.id < n := (mem_candidateList n b).mp (hperm.mem_iff.mp hb)
    have hgd : ∀ (c : CandidateID), c.id < n →
        ((List.range n).map (fun c => (choices.map CandidateID.id).count c)).getD c.id 0
          = topChoiceTally voters c.id := by
      intro c hc
      rw [List.getD_eq_getElem?_getD, List.getElem?_map, List.getElem?_range hc]
      simp [topChoiceTally, hchoices]
    rw [hgd a haid, hgd b hbid] at hab
    exact hab
  · decide

/-- Witness for the C7 theorem on the `majority_election()` fixture. -/
theorem plurality_tally_sorted_witness :
    ([⟨2⟩, ⟨1⟩, ⟨0⟩] : List CandidateID).Perm (candidateList 3)
    ∧ ([⟨2⟩, ⟨1⟩, ⟨0⟩] : List CandidateID).Pairwise (fun a b =>
        topChoiceTally majorityVoters b.id < topChoiceTally majorityVoters a.id
        ∨ (topChoiceTally majorityVoters a.id = topChoiceTally majorityVoters b.id
            ∧ natCmpTB b.id a.id ≠ .gt)) :=
  (plurality_tally_sorted_and_fixture majorityVoters 3 natCmpTB
    natCmpTB_gt_iff_lt natCmpTB_not_gt_trans).1 [⟨2⟩, ⟨1⟩, ⟨0⟩] (by decide)

/-! ## Claim C6: fptp_runoff relative to plurality -/

/-- Claim C6: `fptp_runoff` returns exactly the plurality ranking except
possibly with positions 0 and 1 swapped; positions from 2 on are unchanged,
and the swap happens precisely when the honest head-to-head winner between
the top two is the second-ranked candidate.  On the 9-voter
`runoff_differs()` fixture, `fptp_runoff` returns `[1, 2, 0]` while
`plurality` returns `[2, 1, 0]`. -/
theorem fptp_runoff_vs_plurality (voters : List HonestVoter) (n : ℕ) (tb : TB) :
    (∀ rp rf, plurality voters n tb = some rp → fptp_runoff voters n tb = some rf →
      (rf = rp ∨ rf = swap01 rp)
      ∧ (∀ i, 2 ≤ i → rf.get? i = rp.get? i)
      ∧ ∃ c0 c1 w, rp.get? 0 = some c0 ∧ rp.get? 1 = some c1
          ∧ honestRunoffDriver voters tb c0 c1 = some w
          ∧ rf = (if w = c1 then swap01 rp else rp))
    ∧ fptp_runoff runoffVoters 3 natCmpTB = some [⟨1⟩, ⟨2⟩, ⟨0⟩]
    ∧ plurality runoffVoters 3 natCmpTB = some [⟨2⟩, ⟨1⟩, ⟨0⟩] := by
  refine ⟨?_, by decide, by decide⟩
  intro rp rf hp hf
  unfold fptp_runoff at hf
  unfold plurality at hp
  rw [hp] at hf
  simp only [Option.bind_eq_bind, Option.some_bind] at hf
  obtain ⟨c0, hc0⟩ : ∃ c0, rp.get? 0 = some c0 := by
    cases hx : rp.get? 0 with
    | none => rw [hx] at hf; simp at hf
    | some c0 => exact ⟨c0, rfl⟩
  rw [hc0] at hf
  simp only [Option.some_bind] at hf
  obtain ⟨c1, hc1⟩ : ∃ c1, rp.get? 1 = some c1 := by
    cases hx : rp.get? 1 with
    | none => rw [hx] at hf; simp at hf
    | some c1 => exact ⟨c1, rfl⟩
  rw [hc1] at hf
  simp only [Option.some_bind] at hf
  obtain ⟨w, hw⟩ : ∃ w, honestRunoffDriver voters tb c0 c1 = some w := by
    cases hx : honestRunoffDriver voters tb c0 c1 with
    | none => rw [hx] at hf; simp at hf
    | some w => exact ⟨w, rfl⟩
  rw [hw] at hf
  simp only [Option.some_bind] at hf
  by_cases hwc : w = c1
  · rw [if_pos hwc] at hf
    have hrf : rf = swap01 rp := (Option.some_inj.mp hf).symm
    refine ⟨Or.inr hrf, fun i hi => by rw [hrf, swap01_get?_of_two_le rp i hi],
      c0, c1, w, hc0, hc1, hw, ?_⟩
    simp [hwc, hrf]
  · rw [if_neg hwc] at hf
    have hrf : rf = rp := (Option.some_inj.mp hf).symm
    refine ⟨Or.inl hrf, fun i _ => by rw [hrf],
      c0, c1, w, hc0, hc1, hw, ?_⟩
    simp [hwc, hrf]

/-- Witness for the C6 theorem on the `runoff_differs()` fixture. -/
theorem fptp_runoff_vs_plurality_witness :
    (([⟨1⟩, ⟨2⟩, ⟨0⟩] : List CandidateID) = [⟨2⟩, ⟨1⟩, ⟨0⟩]
      ∨ ([⟨1⟩, ⟨2⟩, ⟨0⟩] : List CandidateID) = swap01 [⟨2⟩, ⟨1⟩, ⟨0⟩])
    ∧ ([⟨1⟩, ⟨2⟩, ⟨0⟩] : List CandidateID).get? 2
        = ([⟨2⟩, ⟨1⟩, ⟨0⟩] : List CandidateID).get? 2 :=
  ⟨((fptp_runoff_vs_plurality runoffVoters 3 natCmpTB).1 [⟨2⟩, ⟨1⟩, ⟨0⟩]
      [⟨1⟩, ⟨2⟩, ⟨0⟩] (by decide) (by decide)).1,
    ((fptp_runoff_vs_plurality runoffVoters 3 natCmpTB).1 [⟨2⟩, ⟨1⟩, ⟨0⟩]
      [⟨1⟩, ⟨2⟩, ⟨0⟩] (by decide) (by decide)).2.1 2 (by decide)⟩

/-! ## The irv elimination loop -/

theorem mem_of_head? {α : Type} (l : List α) (a : α) (h : l.head? = some a) : a ∈ l := by
  cases l with
  | nil => cases h
  | cons x xs =>
    rw [List.head?_cons, Option.some_inj] at h
    rw [← h]
    exact List.mem_cons_self _ _

theorem exists_lt_not_mem (n : ℕ) (elim : List ℕ) (hlen : elim.length < n) :
    ∃ i, i < n ∧ i ∉ elim := by
  by_contra hcon
  push_neg at hcon
  have hsub : List.range n ⊆ elim := fun x hx => hcon x (List.mem_range.mp hx)
  have hle := (List.subperm_of_subset (List.nodup_range n) hsub).length_le
  rw [List.length_range] at hle
  omega

theorem roundLoser_exists (tb : TB) (tallies elim : List ℕ)
    (h : ∃ i, i < tallies.length ∧ i ∉ elim) :
    ∃ l, roundLoser tb tallies elim = some l ∧ l < tallies.length ∧ l ∉ elim := by
  obtain ⟨i, hi, hie⟩ := h
  have hmem : (i, tallies.getD i 0) ∈ tallies.enum.filter (fun p => p.1 ∉ elim) := by
    rw [List.mem_filter]
    refine ⟨?_, by simpa using hie⟩
    rw [List.mem_enum_iff_getElem?]
    show tallies[i]? = some (tallies.getD i 0)
    rw [List.getD_eq_getElem?_getD, List.getElem?_eq_getElem hi]
    rfl
  obtain ⟨m, hm⟩ := Option.isSome_iff_exists.mp
    (minByFirst_isSome (fun p q => (compare p.2 q.2).then (tb p.2 q.2)) _
      (List.ne_nil_of_mem hmem))
  have hmm := minByFirst_mem _ _ _ hm
  rw [List.mem_filter] at hmm
  obtain ⟨hmenum, hmfil⟩ := hmm
  rw [List.mem_enum_iff_getElem?] at hmenum
  obtain ⟨hlt, _⟩ := List.getElem?_eq_some.mp hmenum
  exact ⟨m.1, by unfold roundLoser; rw [hm]; rfl, hlt, by simpa using hmfil⟩

theorem roundLoser_some_props (tb : TB) (tallies elim : List ℕ) (l : ℕ)
    (h : roundLoser tb tallies elim = some l) : l < tallies.length ∧ l ∉ elim := by
  unfold roundLoser at h
  obtain ⟨m, hm, hml⟩ := Option.map_eq_some'.mp h
  have hmm := minByFirst_mem _ _ _ hm
  rw [List.mem_filter] at hmm
  obtain ⟨hmenum, hmfil⟩ := hmm
  rw [List.mem_enum_iff_getElem?] at hmenum
  obtain ⟨hlt, _⟩ := List.getElem?_eq_some.mp hmenum
  subst hml
  exact ⟨hlt, by simpa using hmfil⟩

/-- Helper bounds for the irv loop invariants. -/
theorem irvAdvance_bound (n : ℕ) (elim : List ℕ) (ballots : List (List CandidateID))
    (hb : ∀ b ∈ ballots, ∀ c ∈ b, c.id < n) :
    ∀ b ∈ irvAdvance elim ballots, ∀ c ∈ b, c.id < n := by
  intro b hbmem c hc
  obtain ⟨b0, hb0, rfl⟩ := List.mem_map.mp hbmem
  exact hb b0 hb0 c ((List.dropWhile_sublist _).mem hc)

theorem irvFronts_bound (n : ℕ) (ballots : List (List CandidateID))
    (hb : ∀ b ∈ ballots, ∀ c ∈ b, c.id < n) :
    ∀ x ∈ irvFronts ballots, x < n := by
  intro x hx
  obtain ⟨c, hc, rfl⟩ := List.mem_map.mp hx
  obtain ⟨b, hbmem, hhead⟩ := List.mem_filterMap.mp hc
  exact hb b hbmem c (mem_of_head? b c hhead)

theorem irvTallies_length (n : ℕ) (fronts : List ℕ) :
    (irvTallies n fronts).length = n := by
  simp [irvTallies]

/-- One unfolding of the fueled `irv` loop (definitional). -/
theorem irvLoop_succ_eq (tb : TB) (n fuel : ℕ) (ballots : List (List CandidateID))
    (elimOrd : List ℕ) :
    irvLoop tb n (fuel + 1) ballots elimOrd =
      match irvRound tb n (ballots, elimOrd) with
      | none => none
      | some st =>
        if st.2.length = n - 1 then
          match (List.range n).find? (fun i => i ∉ st.2) with
          | none => none
          | some winner => some (((st.2 ++ [winner]).map CandidateID.mk).reverse)
        else irvLoop tb n fuel st.1 st.2 := rfl

/-- The master lemma about the irv loop: with in-range ballots, a `Nodup`
elimination log shorter than `n - 1` and enough fuel, the loop performs
exactly `n - 1 - |log|` further rounds, extends the log to length `n - 1`
without duplicates, and returns the surviving winner consed onto the
reversed log. -/
theorem irvLoop_master (tb : TB) (n : ℕ) :
    ∀ (fuel : ℕ) (ballots : List (List CandidateID)) (elimOrd : List ℕ),
    (∀ b ∈ ballots, ∀ c ∈ b, c.id < n) →
    (∀ x ∈ elimOrd, x < n) →
    elimOrd.Nodup →
    elimOrd.length < n - 1 →
    n - 1 - elimOrd.length ≤ fuel →
    ∃ bs fin winner,
      irvRounds tb n (n - 1 - elimOrd.length) (ballots, elimOrd) = some (bs, fin)
      ∧ fin.length = n - 1 ∧ fin.Nodup ∧ (∀ x ∈ fin, x < n)
      ∧ List.IsPrefix elimOrd fin
      ∧ (List.range n).find? (fun i => i ∉ fin) = some winner
      ∧ winner < n ∧ winner ∉ fin
      ∧ irvLoop tb n fuel ballots elimOrd
          = some (CandidateID.mk winner :: (fin.map CandidateID.mk).reverse) := by
  intro fuel
  induction fuel with
  | zero =>
    intro ballots elimOrd _ _ _ hlt hfuel
    omega
  | succ fuel ih =>
    intro ballots elimOrd hb he hnd hlt hfuel
    have hb' := irvAdvance_bound n elimOrd ballots hb
    have hguard : ((irvFronts (irvAdvance elimOrd ballots)).all
        (fun x => decide (x < n))) = true := by
      rw [List.all_eq_true]
      intro x hx
      simpa using irvFronts_bound n _ hb' x hx
    obtain ⟨loser, hlos, hloslt, hlosnot⟩ := roundLoser_exists tb
      (irvTallies n (irvFronts (irvAdvance elimOrd ballots))) elimOrd (by
        obtain ⟨i, hi1, hi2⟩ := exists_lt_not_mem n elimOrd (by omega)
        exact ⟨i, by rw [irvTallies_length]; omega, hi2⟩)
    have hround : irvRound tb n (ballots, elimOrd)
        = some (irvAdvance elimOrd ballots, elimOrd ++ [loser]) := by
      simp only [irvRound]
      rw [if_pos hguard, hlos]
    have he' : ∀ x ∈ elimOrd ++ [loser], x < n := by
      intro x hx
      rcases List.mem_append.mp hx with hx1 | hx2
      · exact he x hx1
      · rw [List.mem_singleton.mp hx2]
        rw [irvTallies_length] at hloslt
        omega
    have hnd' : (elimOrd ++ [loser]).Nodup := by
      refine List.Nodup.append hnd (List.nodup_singleton _) ?_
      intro x hx1 hx2
      rw [List.mem_singleton.mp hx2] at hx1
      exact hlosnot hx1
    have hlen' : (elimOrd ++ [loser]).length = elimOrd.length + 1 := by simp
    rw [irvLoop_succ_eq]
    simp only [hround]
    by_cases hterm : (elimOrd ++ [loser]).length = n - 1
    · -- terminal round
      obtain ⟨w, hw1, hw2⟩ := exists_lt_not_mem n (elimOrd ++ [loser]) (by omega)
      have hfind : ((List.range n).find? (fun i => i ∉ elimOrd ++ [loser])).isSome := by
        rw [List.find?_isSome]
        exact ⟨w, List.mem_range.mpr hw1, by simpa using hw2⟩
      obtain ⟨winner, hwinner⟩ := Option.isSome_iff_exists.mp hfind
      have hwinlt : winner < n := List.mem_range.mp (List.mem_of_find?_eq_some hwinner)
      have hwinnot : winner ∉ elimOrd ++ [loser] := by
        have := List.find?_some hwinner
        simpa using this
      have hone : n - 1 - elimOrd.length = 1 := by omega
      refine ⟨irvAdvance elimOrd ballots, elimOrd ++ [loser], winner, ?_, hterm, hnd', he',
        List.prefix_append _ _, hwinner, hwinlt, hwinnot, ?_⟩
      · rw [hone]
        show (irvRound tb n (ballots, elimOrd)).bind (irvRounds tb n 0) = _
        rw [hround]
        rfl
      · rw [if_pos hterm, hwinner]
        simp
    · -- recurse
      have hlt' : (elimOrd ++ [loser]).length < n - 1 := by omega
      have hfuel' : n - 1 - (elimOrd ++ [loser]).length ≤ fuel := by
        rw [hlen']
        omega
      obtain ⟨bs, fin, winner, hrounds, hfinlen, hfinnd, hfinlt, hpref, hfindw,
        hwlt, hwnot, hloop⟩ := ih (irvAdvance elimOrd ballots) (elimOrd ++ [loser])
          hb' he' hnd' hlt' hfuel'
      have hk : n - 1 - elimOrd.length = (n - 1 - (elimOrd ++ [loser]).length) + 1 := by
        rw [hlen']
        omega
      refine ⟨bs, fin, winner, ?_, hfinlen, hfinnd, hfinlt,
        List.IsPrefix.trans (List.prefix_append _ _) hpref, hfindw, hwlt, hwnot, ?_⟩
      · rw [hk]
        show (irvRound tb n (ballots, elimOrd)).bind
          (irvRounds tb n (n - 1 - (elimOrd ++ [loser]).length)) = _
        rw [hround]
        simpa using hrounds
      · rw [if_neg hterm]
        exact hloop

/-- Whenever the irv loop returns a ranking at all, that ranking is the
reverse of a duplicate-free, in-range elimination log of length `n - 1`
followed by the surviving winner. -/
theorem irvLoop_result (tb : TB) (n : ℕ) :
    ∀ (fuel : ℕ) (ballots : List (List CandidateID)) (elimOrd : List ℕ)
      (r : List CandidateID),
    (∀ x ∈ elimOrd, x < n) → elimOrd.Nodup → List.Sublist elimOrd elimOrd →
    irvLoop tb n fuel ballots elimOrd = some r →
    ∃ fin winner, fin.Nodup ∧ (∀ x ∈ fin, x < n) ∧ fin.length = n - 1
      ∧ winner < n ∧ winner ∉ fin ∧ 1 ≤ n
      ∧ r = ((fin ++ [winner]).map CandidateID.mk).reverse := by
  intro fuel
  induction fuel with
  | zero =>
    intro ballots elimOrd r _ _ _ h
    rw [show irvLoop tb n 0 ballots elimOrd = none from rfl] at h
    cases h
  | succ fuel ih =>
    intro ballots elimOrd r he hnd _ h
    rw [irvLoop_succ_eq] at h
    cases hround : irvRound tb n (ballots, elimOrd) with
    | none => rw [hround] at h; cases h
    | some st =>
      rw [hround] at h
      obtain ⟨loser, hlos, hst⟩ : ∃ loser,
          roundLoser tb (irvTallies n (irvFronts (irvAdvance elimOrd ballots))) elimOrd
            = some loser
          ∧ st = (irvAdvance elimOrd ballots, elimOrd ++ [loser]) := by
        revert hround
        simp only [irvRound]
        by_cases hguard : ((irvFronts (irvAdvance elimOrd ballots)).all
            (fun x => decide (x < n))) = true
        · rw [if_pos hguard]
          cases hlos : roundLoser tb
              (irvTallies n (irvFronts (irvAdvance elimOrd ballots))) elimOrd with
          | none => intro hcon; cases hcon
          | some loser =>
            intro hcon
            exact ⟨loser, rfl, (Option.some_inj.mp hcon).symm⟩
        · rw [if_neg hguard]
          intro hcon
          cases hcon
      obtain ⟨hloslt, hlosnot⟩ := roundLoser_some_props tb _ elimOrd loser hlos
      rw [irvTallies_length] at hloslt
      subst hst
      have h2 : (if (elimOrd ++ [loser]).length = n - 1 then
          (match (List.range n).find? (fun i => i ∉ (elimOrd ++ [loser])) with
            | none => none
            | some winner =>
                some ((((elimOrd ++ [loser]) ++ [winner]).map CandidateID.mk).reverse))
          else irvLoop tb n fuel (irvAdvance elimOrd ballots) (elimOrd ++ [loser]))
          = some r := h
      have he' : ∀ x ∈ elimOrd ++ [loser], x < n := by
        intro x hx
        rcases List.mem_append.mp hx with hx1 | hx2
        · exact he x hx1
        · rw [List.mem_singleton.mp hx2]
          exact hloslt
      have hnd' : (elimOrd ++ [loser]).Nodup := by
        refine List.Nodup.append hnd (List.nodup_singleton _) ?_
        intro x hx1 hx2
        rw [List.mem_singleton.mp hx2] at hx1
        exact hlosnot hx1
      by_cases hterm : (elimOrd ++ [loser]).length = n - 1
      · rw [if_pos hterm] at h2
        revert h2
        cases hfind : (List.range n).find? (fun i => i ∉ (elimOrd ++ [loser])) with
        | none => intro h2; cases h2
        | some winner =>
          intro h2
          have hwinlt : winner < n := List.mem_range.mp (List.mem_of_find?_eq_some hfind)
          have hwinnot : winner ∉ elimOrd ++ [loser] := by
            have := List.find?_some hfind
            simpa using this
          have hn1 : 1 ≤ n := by
            have : 1 ≤ (elimOrd ++ [loser]).length := by simp
            omega
          exact ⟨elimOrd ++ [loser], winner, hnd', he', hterm, hwinlt, hwinnot, hn1,
            (Option.some_inj.mp h2).symm⟩
      · rw [if_neg hterm] at h2
        exact ih (irvAdvance elimOrd ballots) (elimOrd ++ [loser]) r he' hnd'
          (List.Sublist.refl _) h2

/-- A list of distinct naturals below `n`, of length `n`, is a permutation
of `range n`. -/
theorem perm_range_of_nodup_bound (n : ℕ) (l : List ℕ) (hnd : l.Nodup)
    (hb : ∀ x ∈ l, x < n) (hlen : l.length = n) : l.Perm (List.range n) := by
  have hsub : l ⊆ List.range n := fun x hx => List.mem_range.mpr (hb x hx)
  refine (List.subperm_of_subset hnd hsub).perm_of_length_le ?_
  rw [List.length_range, hlen]

/-- `irv` results are permutations of the candidate list. -/
theorem irv_perm (voters : List HonestVoter) (n : ℕ) (tb : TB) (r : List CandidateID)
    (h : irv voters n tb = some r) : r.Perm (candidateList n) := by
  have h2 : irvLoop tb n (n + 2) (voters.map (fun v => v.cachedOrdinalVote)) []
      = some r := h
  obtain ⟨fin, winner, hnd, hb, hlen, hwlt, hwnot, hn1, hr⟩ :=
    irvLoop_result tb n (n + 2) (voters.map (fun v => v.cachedOrdinalVote)) [] r
      (by simp) List.nodup_nil (List.Sublist.refl _) h2
  have hperm : (fin ++ [winner]).Perm (List.range n) := by
    refine perm_range_of_nodup_bound n _ ?_ ?_ ?_
    · refine List.Nodup.append hnd (List.nodup_singleton _) ?_
      intro x hx1 hx2
      rw [List.mem_singleton.mp hx2] at hx1
      exact hwnot hx1
    · intro x hx
      rcases List.mem_append.mp hx with hx1 | hx2
      · exact hb x hx1
      · rw [List.mem_singleton.mp hx2]
        exact hwlt
    · simp [hlen]
      omega
  rw [hr]
  exact List.Perm.trans (List.reverse_perm _) (hperm.map CandidateID.mk)

/-- Inversion for the shared top-two-runoff postprocessing step. -/
theorem runoffStep_inv (voters : List HonestVoter) (tb : TB)
    (base : Option (List CandidateID)) (r : List CandidateID)
    (h : (do
      let ranking ← base
      let c0 ← ranking.get? 0
      let c1 ← ranking.get? 1
      let winner ← honestRunoffDriver voters tb c0 c1
      if winner = c1 then some (swap01 ranking) else some ranking) = some r) :
    ∃ ranking, base = some ranking ∧ (r = ranking ∨ r = swap01 ranking) := by
  cases hbase : base with
  | none => rw [hbase] at h; cases h
  | some ranking =>
    rw [hbase] at h
    simp only [Option.bind_eq_bind, Option.some_bind] at h
    refine ⟨ranking, rfl, ?_⟩
    obtain ⟨c0, hc0⟩ : ∃ c0, ranking.get? 0 = some c0 := by
      cases hx : ranking.get? 0 with
      | none => rw [hx] at h; simp at h
      | some c0 => exact ⟨c0, rfl⟩
    rw [hc0] at h
    simp only [Option.some_bind] at h
    obtain ⟨c1, hc1⟩ : ∃ c1, ranking.get? 1 = some c1 := by
      cases hx : ranking.get? 1 with
      | none => rw [hx] at h; simp at h
      | some c1 => exact ⟨c1, rfl⟩
    rw [hc1] at h
    simp only [Option.some_bind] at h
    obtain ⟨w, hw⟩ : ∃ w, honestRunoffDriver voters tb c0 c1 = some w := by
      cases hx : honestRunoffDriver voters tb c0 c1 with
      | none => rw [hx] at h; simp at h
      | some w => exact ⟨w, rfl⟩
    rw [hw] at h
    simp only [Option.some_bind] at h
    by_cases hwc : w = c1
    · rw [if_pos hwc] at h
      exact Or.inr (Option.some_inj.mp h).symm
    · rw [if_neg hwc] at h
      exact Or.inl (Option.some_inj.mp h).symm

/-- Inversion for the STAR driver: the result, when any, is the score-stage
ranking or that ranking with its top two swapped. -/
theorem starDriver_cases (voters : List HonestVoter) (n : ℕ) (tb : TB) (range : ℕ)
    (r : List CandidateID) (h : starDriver voters n tb range = some r) :
    r = starScoreRanking voters n tb range
    ∨ r = swap01 (starScoreRanking voters n tb range) := by
  simp only [starDriver, Option.bind_eq_bind] at h
  obtain ⟨c0, hc0⟩ : ∃ c0, (starScoreRanking voters n tb range).get? 0 = some c0 := by
    cases hx : (starScoreRanking voters n tb range).get? 0 with
    | none => rw [hx] at h; simp at h
    | some c0 => exact ⟨c0, rfl⟩
  rw [hc0] at h
  simp only [Option.some_bind] at h
  obtain ⟨c1, hc1⟩ : ∃ c1, (starScoreRanking voters n tb range).get? 1 = some c1 := by
    cases hx : (starScoreRanking voters n tb range).get? 1 with
    | none => rw [hx] at h; simp at h
    | some c1 => exact ⟨c1, rfl⟩
  rw [hc1] at h
  simp only [Option.some_bind] at h
  obtain ⟨fs, hfs⟩ : ∃ fs, List.foldlM
      (fun (p : ℕ × ℕ) ballot =>
        (ballot.get? p.1).bind fun bf =>
          (ballot.get? p.2).bind fun bs =>
            if bs < bf then pure (p.1 + 1, p.2)
            else if bf < bs then pure (p.1, p.2 + 1)
            else match tb bf bs with
              | .lt => pure (p.1, p.2 + 1)
              | .eq => none
              | .gt => pure (p.1 + 1, p.2))
      (0, 0) (voters.map (fun v => v.cardinalBallot range)) = some fs := by
    cases hx : List.foldlM
        (fun (p : ℕ × ℕ) ballot =>
          (ballot.get? p.1).bind fun bf =>
            (ballot.get? p.2).bind fun bs =>
              if bs < bf then pure (p.1 + 1, p.2)
              else if bf < bs then pure (p.1, p.2 + 1)
              else match tb bf bs with
                | .lt => pure (p.1, p.2 + 1)
                | .eq => none
                | .gt => pure (p.1 + 1, p.2))
        (0, 0) (voters.map (fun v => v.cardinalBallot range)) with
    | none => rw [hx] at h; simp at h
    | some fs => exact ⟨fs, rfl⟩
  rw [hfs] at h
  simp only [Option.some_bind] at h
  by_cases h1 : fs.2 < fs.1
  · rw [if_pos h1] at h
    exact Or.inl (Option.some_inj.mp h).symm
  · rw [if_neg h1, if_neg h1] at h
    revert h
    cases htb : tb fs.1 fs.2 with
    | lt => intro h; exact Or.inr (Option.some_inj.mp h).symm
    | eq => intro h; cases h
    | gt => intro h; exact Or.inl (Option.some_inj.mp h).symm

/-- Inversion for contingent vote: the result is the plurality-stage
ranking or that ranking with its top two swapped. -/
theorem contingentVote_cases (voters : List HonestVoter) (n : ℕ) (tb : TB)
    (r : List CandidateID) (h : contingent_vote voters n tb = some r) :
    ∃ vt, r = sortCandidatesByVec (candidateList n) vt tb
      ∨ r = swap01 (sortCandidatesByVec (candidateList n) vt tb) := by
  simp only [contingent_vote, Option.bind_eq_bind] at h
  obtain ⟨tops, hmm⟩ : ∃ tops,
      (voters.map (fun v => v.cachedOrdinalVote)).mapM (fun b => b.head?) = some tops := by
    cases hx : (voters.map (fun v => v.cachedOrdinalVote)).mapM (fun b => b.head?) with
    | none => rw [hx] at h; simp at h
    | some tops => exact ⟨tops, rfl⟩
  rw [hmm] at h
  simp only [Option.some_bind] at h
  refine ⟨(List.range n).map (fun c => (tops.map CandidateID.id).count c), ?_⟩
  split at h
  case isFalse => cases h
  case isTrue hall =>
    obtain ⟨c0, hc0⟩ : ∃ c0, (sortCandidatesByVec (candidateList n)
        ((List.range n).map (fun c => (tops.map CandidateID.id).count c)) tb).get? 0
          = some c0 := by
      cases hx : (sortCandidatesByVec (candidateList n)
          ((List.range n).map (fun c => (tops.map CandidateID.id).count c)) tb).get? 0 with
      | none => rw [hx] at h; simp at h
      | some c0 => exact ⟨c0, rfl⟩
    rw [hc0] at h
    simp only [Option.some_bind] at h
    obtain ⟨c1, hc1⟩ : ∃ c1, (sortCandidatesByVec (candidateList n)
        ((List.range n).map (fun c => (tops.map CandidateID.id).count c)) tb).get? 1
          = some c1 := by
      cases hx : (sortCandidatesByVec (candidateList n)
          ((List.range n).map (fun c => (tops.map CandidateID.id).count c)) tb).get? 1 with
      | none => rw [hx] at h; simp at h
      | some c1 => exact ⟨c1, rfl⟩
    rw [hc1] at h
    simp only [Option.some_bind] at h
    split at h
    · exact Or.inl (Option.some_inj.mp h).symm
    · split at h
      · exact Or.inr (Option.some_inj.mp h).symm
      · split at h
        · exact Or.inr (Option.some_inj.mp h).symm
        · cases h
        · exact Or.inl (Option.some_inj.mp h).symm

/-! ## Claim C1: the permutation invariant -/

theorem pluralityDriver_perm (voters : List HonestVoter) (n : ℕ) (tb : TB)
    (r : List CandidateID) (h : pluralityDriver voters n tb = some r) :
    r.Perm (candidateList n) := by
  obtain ⟨choices, _, _, hreq⟩ := pluralityDriver_inv voters n tb r h
  exact hreq ▸ sortCandidatesByVec_perm _ _ _

theorem scoreDriver_perm (voters : List HonestVoter) (n : ℕ) (tb : TB) (range : ℕ)
    (r : List CandidateID) (h : scoreDriver voters n tb range = some r) :
    r.Perm (candidateList n) :=
  (scoreDriver_inv voters n tb range r h) ▸ sortCandidatesByVec_perm _ _ _

theorem approvalDriver_perm (voters : List HonestVoter) (n : ℕ) (tb : TB)
    (r : List CandidateID) (h : approvalDriver voters n tb = some r) :
    r.Perm (candidateList n) :=
  (approvalDriver_inv voters n tb r h) ▸ sortCandidatesByVec_perm _ _ _

theorem starScoreRanking_perm (voters : List HonestVoter) (n : ℕ) (tb : TB)
    (range : ℕ) : (starScoreRanking voters n tb range).Perm (candidateList n) :=
  sortCandidatesByVec_perm _ _ _

/-- Claim C1: for every voting method, every honest-voter population, every
`n ≥ 2` and every tie-breaker, whenever the method returns a ranking at all,
that ranking is a permutation of `CandidateID(0..n)` — no duplicates, no
omissions. -/
theorem permutation_invariant_all_methods (voters : List HonestVoter) (n : ℕ)
    (tb : TB) (_hn : 2 ≤ n) :
    (∀ r, plurality voters n tb = some r → r.Perm (candidateList n))
    ∧ (∀ r, fptp_runoff voters n tb = some r → r.Perm (candidateList n))
    ∧ (∀ r, contingent_vote voters n tb = some r → r.Perm (candidateList n))
    ∧ (∀ r, irv voters n tb = some r → r.Perm (candidateList n))
    ∧ (∀ r, approval voters n tb = some r → r.Perm (candidateList n))
    ∧ (∀ r, approval_runoff voters n tb = some r → r.Perm (candidateList n))
    ∧ (∀ r, score_5 voters n tb = some r → r.Perm (candidateList n))
    ∧ (∀ r, score_10 voters n tb = some r → r.Perm (candidateList n))
    ∧ (∀ r, score_100 voters n tb = some r → r.Perm (candidateList n))
    ∧ (∀ r, score_5_runoff voters n tb = some r → r.Perm (candidateList n))
    ∧ (∀ r, score_10_runoff voters n tb = some r → r.Perm (candidateList n))
    ∧ (∀ r, score_100_runoff voters n tb = some r → r.Perm (candidateList n))
    ∧ (∀ r, star_5 voters n tb = some r → r.Perm (candidateList n))
    ∧ (∀ r, star_10 voters n tb = some r → r.Perm (candidateList n))
    ∧ (∀ r, star_100 voters n tb = some r → r.Perm (candidateList n)) := by
  have hrunoff : ∀ (base : Option (List CandidateID)),
      (∀ rb, base = some rb → rb.Perm (candidateList n)) →
      ∀ r, (do
        let ranking ← base
        let c0 ← ranking.get? 0
        let c1 ← ranking.get? 1
        let winner ← honestRunoffDriver voters tb c0 c1
        if winner = c1 then some (swap01 ranking) else some ranking) = some r →
      r.Perm (candidateList n) := by
    intro base hbase r h
    obtain ⟨ranking, hb, hcase⟩ := runoffStep_inv voters tb base r h
    have hperm := hbase ranking hb
    rcases hcase with rfl | rfl
    · exact hperm
    · exact (swap01_perm ranking).trans hperm
  have hstar : ∀ (range : ℕ) r, starDriver voters n tb range = some r →
      r.Perm (candidateList n) := by
    intro range r h
    rcases starDriver_cases voters n tb range r h with rfl | rfl
    · exact starScoreRanking_perm voters n tb range
    · exact (swap01_perm _).trans (starScoreRanking_perm voters n tb range)
  refine ⟨fun r h => pluralityDriver_perm voters n tb r h,
    fun r h => hrunoff (pluralityDriver voters n tb)
      (fun rb hb => pluralityDriver_perm voters n tb rb hb) r h,
    ?_,
    fun r h => irv_perm voters n tb r h,
    fun r h => approvalDriver_perm voters n tb r h,
    fun r h => hrunoff (approvalDriver voters n tb)
      (fun rb hb => approvalDriver_perm voters n tb rb hb) r h,
    fun r h => scoreDriver_perm voters n tb 5 r h,
    fun r h => scoreDriver_perm voters n tb 10 r h,
    fun r h => scoreDriver_perm voters n tb 100 r h,
    fun r h => hrunoff (scoreDriver voters n tb 5)
      (fun rb hb => scoreDriver_perm voters n tb 5 rb hb) r h,
    fun r h => hrunoff (scoreDriver voters n tb 10)
      (fun rb hb => scoreDriver_perm voters n tb 10 rb hb) r h,
    fun r h => hrunoff (scoreDriver voters n tb 100)
      (fun rb hb => scoreDriver_perm voters n tb 100 rb hb) r h,
    fun r h => hstar 5 r h, fun r h => hstar 10 r h, fun r h => hstar 100 r h⟩
  intro r h
  obtain ⟨vt, hcase⟩ := contingentVote_cases voters n tb r h
  rcases hcase with rfl | rfl
  · exact sortCandidatesByVec_perm _ _ _
  · exact (swap01_perm _).trans (sortCandidatesByVec_perm _ _ _)

/-- Witness for the C1 theorem: the irv ranking on the
`majority_election()` fixture is a permutation of the three candidates. -/
theorem permutation_invariant_witness :
    ([⟨2⟩, ⟨1⟩, ⟨0⟩] : List CandidateID).Perm (candidateList 3) :=
  (permutation_invariant_all_methods majorityVoters 3 natCmpTB
    (by decide)).2.2.2.1 [⟨2⟩, ⟨1⟩, ⟨0⟩] (by decide)

/-! ## Well-formedness of freshly constructed honest voters -/

theorem new_ordinal_perm (u : List ℚ) (s : Bool) (thb : ApprovalThresholdBehavior) :
    (HonestVoter.new u s thb).cachedOrdinalVote.Perm (candidateList u.length) :=
  List.perm_insertionSort _ _

theorem new_utilities (u : List ℚ) (s : Bool) (thb : ApprovalThresholdBehavior) :
    (HonestVoter.new u s thb).utilities = u := rfl

theorem new_cardinalBallot_length (u : List ℚ) (s : Bool)
    (thb : ApprovalThresholdBehavior) (range : ℕ) :
    ((HonestVoter.new u s thb).cardinalBallot range).length = u.length := by
  have hcache : (HonestVoter.new u s thb).cachedCardinalBallots = [] := rfl
  have hscaled : (HonestVoter.new u s thb).cachedScaledUtilities
      = if s then some (scale_utilities_linearly u) else none := rfl
  unfold HonestVoter.cardinalBallot
  rw [hcache, hscaled]
  cases s with
  | false => simp [new_utilities]
  | true => simp [scale_utilities_linearly]

theorem maxUtilityIndex_lt (u : List ℚ) (i : ℕ) (h : maxUtilityIndex u = some i) :
    i < u.length := by
  unfold maxUtilityIndex at h
  obtain ⟨m, hm, hmi⟩ := Option.map_eq_some'.mp h
  obtain ⟨p, hp, hpe⟩ := List.mem_map.mp (maxByLast_mem _ _ _ hm)
  have hpenum := List.mem_enum_iff_getElem?.mp hp
  obtain ⟨hlt, _⟩ := List.getElem?_eq_some.mp hpenum
  subst hmi
  have h2 : m.2 = p.1 := (congrArg Prod.snd hpe).symm
  rw [h2]
  exact hlt

theorem generate_approval_ballot_bound (u : List ℚ) (bound : ℚ) :
    ∀ c ∈ generate_approval_ballot u bound, c.id < u.length := by
  intro c hc
  unfold generate_approval_ballot at hc
  by_cases h : (((List.range u.length).filter
      (fun i => bound ≤ u.getD i 0)).map CandidateID.mk).isEmpty
  · rw [if_pos h] at hc
    revert hc
    cases hmui : maxUtilityIndex u with
    | none => intro hc; cases hc
    | some i =>
      intro hc
      rw [List.mem_singleton.mp hc]
      exact maxUtilityIndex_lt u i hmui
  · rw [if_neg h] at hc
    obtain ⟨j, hj, rfl⟩ := List.mem_map.mp hc
    exact List.mem_range.mp (List.mem_of_mem_filter hj)

theorem new_approval_bound (u : List ℚ) (s : Bool) (thb : ApprovalThresholdBehavior) :
    ∀ c ∈ (HonestVoter.new u s thb).cachedApprovalBallot, c.id < u.length := by
  cases thb with
  | Function f => exact generate_approval_ballot_bound u (f u)
  | Preset bound => exact generate_approval_ballot_bound u bound
  | Mean =>
    intro c hc
    obtain ⟨j, hj, rfl⟩ := List.mem_map.mp hc
    exact List.mem_range.mp (List.mem_of_mem_filter hj)

/-! ## Success of the drivers on well-formed populations -/

theorem head?_isSome_of_perm_candidateList (n : ℕ) (hn : 1 ≤ n) (l : List CandidateID)
    (h : l.Perm (candidateList n)) : (l.head?).isSome := by
  have hlen : l.length = n := by rw [h.length_eq, candidateList_length]
  cases hx : l with
  | nil => rw [hx] at hlen; simp at hlen; omega
  | cons a t => rfl

theorem honest_preference_isSome (v : HonestVoter) (a b : CandidateID)
    (ha : a.id < v.utilities.length) (hb : b.id < v.utilities.length) :
    (v.honest_preference a b).isSome := by
  unfold HonestVoter.honest_preference
  rw [List.get?_eq_getElem?, List.get?_eq_getElem?,
    List.getElem?_eq_getElem ha, List.getElem?_eq_getElem hb]
  rfl

theorem honestRunoffDriver_isSome (voters : List HonestVoter) (tb : TB)
    (a b : CandidateID) (h : ∀ v ∈ voters, (v.honest_preference a b).isSome) :
    (honestRunoffDriver voters tb a b).isSome := by
  rw [honestRunoffDriver_eq voters tb a b h]
  rfl

theorem pluralityDriver_isSome (voters : List HonestVoter) (n : ℕ) (tb : TB)
    (hn : 1 ≤ n) (hv : ∀ v ∈ voters, v.cachedOrdinalVote.Perm (candidateList n)) :
    (pluralityDriver voters n tb).isSome := by
  have hhead : ∀ v ∈ voters, (v.cachedOrdinalVote.head?).isSome := fun v hv2 =>
    head?_isSome_of_perm_candidateList n hn _ (hv v hv2)
  simp only [pluralityDriver, Option.bind_eq_bind]
  rw [mapM_option_eq_filterMap _ _ hhead]
  simp only [Option.some_bind]
  have hall : (((voters.filterMap (fun v => v.cachedOrdinalVote.head?)).map
      CandidateID.id).all (fun x => decide (x < n))) = true := by
    rw [List.all_eq_true]
    intro x hx
    obtain ⟨c, hc, rfl⟩ := List.mem_map.mp hx
    obtain ⟨v, hv2, hhv⟩ := List.mem_filterMap.mp hc
    have hcmem : c ∈ v.cachedOrdinalVote := mem_of_head? _ _ hhv
    simpa using (mem_candidateList n c).mp (((hv v hv2).mem_iff).mp hcmem)
  rw [if_pos hall]
  rfl

theorem scoreDriver_isSome (voters : List HonestVoter) (n : ℕ) (tb : TB) (range : ℕ)
    (hv : ∀ v ∈ voters, (v.cardinalBallot range).length = n) :
    (scoreDriver voters n tb range).isSome := by
  have hall : ((voters.map (fun v => v.cardinalBallot range)).all
      (fun b => decide (b.length ≤ n))) = true := by
    rw [List.all_eq_true]
    intro b hb
    obtain ⟨v, hv2, rfl⟩ := List.mem_map.mp hb
    simp [hv v hv2]
  simp only [scoreDriver]
  rw [if_pos hall]
  rfl

theorem approvalDriver_isSome (voters : List HonestVoter) (n : ℕ) (tb : TB)
    (hv : ∀ v ∈ voters, ∀ c ∈ v.cachedApprovalBallot, c.id < n) :
    (approvalDriver voters n tb).isSome := by
  have hall : ((voters.map (fun v => v.cachedApprovalBallot)).all
      (fun b => b.all (fun c => decide (c.id < n)))) = true := by
    rw [List.all_eq_true]
    intro b hb
    obtain ⟨v, hv2, rfl⟩ := List.mem_map.mp hb
    rw [List.all_eq_true]
    intro c hc
    simpa using hv v hv2 c hc
  simp only [approvalDriver]
  rw [if_pos hall]
  rfl

theorem get?_isSome_of_perm_candidateList (n : ℕ) (l : List CandidateID) (i : ℕ)
    (h : l.Perm (candidateList n)) (hi : i < n) : (l.get? i).isSome := by
  have hlen : l.length = n := by rw [h.length_eq, candidateList_length]
  rw [List.get?_eq_getElem?, List.getElem?_eq_getElem (by omega)]
  rfl

/-- The shared top-two-runoff step succeeds whenever the base ranking exists,
is a permutation of the candidates, `n ≥ 2`, and every voter can compare any
two candidates below `n`. -/
theorem runoffStep_isSome (voters : List HonestVoter) (tb : TB) (n : ℕ)
    (base : Option (List CandidateID)) (hn : 2 ≤ n)
    (hbase : ∃ ranking, base = some ranking ∧ ranking.Perm (candidateList n))
    (hutil : ∀ v ∈ voters, v.utilities.length = n) :
    (do
      let ranking ← base
      let c0 ← ranking.get? 0
      let c1 ← ranking.get? 1
      let winner ← honestRunoffDriver voters tb c0 c1
      if winner = c1 then some (swap01 ranking) else some ranking).isSome := by
  obtain ⟨ranking, hb, hperm⟩ := hbase
  rw [hb]
  simp only [Option.bind_eq_bind, Option.some_bind]
  obtain ⟨c0, hc0⟩ := Option.isSome_iff_exists.mp
    (get?_isSome_of_perm_candidateList n ranking 0 hperm (by omega))
  obtain ⟨c1, hc1⟩ := Option.isSome_iff_exists.mp
    (get?_isSome_of_perm_candidateList n ranking 1 hperm (by omega))
  rw [hc0]
  simp only [Option.some_bind]
  rw [hc1]
  simp only [Option.some_bind]
  have hpref : ∀ v ∈ voters, (v.honest_preference c0 c1).isSome := by
    intro v hvmem
    have hc0mem : c0 ∈ ranking := by
      rw [List.get?_eq_getElem?] at hc0
      exact List.getElem?_mem hc0
    have hc1mem : c1 ∈ ranking := by
      rw [List.get?_eq_getElem?] at hc1
      exact List.getElem?_mem hc1
    have h0 : c0.id < n := (mem_candidateList n c0).mp (hperm.mem_iff.mp hc0mem)
    have h1 : c1.id < n := (mem_candidateList n c1).mp (hperm.mem_iff.mp hc1mem)
    exact honest_preference_isSome v c0 c1 (by rw [hutil v hvmem]; exact h0)
      (by rw [hutil v hvmem]; exact h1)
  obtain ⟨w, hw⟩ := Option.isSome_iff_exists.mp
    (honestRunoffDriver_isSome voters tb c0 c1 hpref)
  rw [hw]
  simp only [Option.some_bind]
  by_cases hwc : w = c1
  · rw [if_pos hwc]
    rfl
  · rw [if_neg hwc]
    rfl

theorem irv_isSome (voters : List HonestVoter) (n : ℕ) (tb : TB) (hn : 2 ≤ n)
    (hv : ∀ v ∈ voters, v.cachedOrdinalVote.Perm (candidateList n)) :
    (irv voters n tb).isSome := by
  have hb : ∀ b ∈ voters.map (fun v => v.cachedOrdinalVote), ∀ c ∈ b, c.id < n := by
    intro b hbm c hc
    obtain ⟨v, hvm, rfl⟩ := List.mem_map.mp hbm
    exact (mem_candidateList n c).mp (((hv v hvm).mem_iff).mp hc)
  obtain ⟨bs, fin, winner, _, _, _, _, _, _, _, _, hloop⟩ :=
    irvLoop_master tb n (n + 2) (voters.map (fun v => v.cachedOrdinalVote)) []
      hb (by simp) List.nodup_nil (by simp; omega) (by simp; omega)
  show (irvLoop tb n (n + 2) (voters.map (fun v => v.cachedOrdinalVote)) []).isSome
  rw [hloop]
  rfl

/-- Claim C3: for every population whose ordinal ballots mention only
candidates below `n` — full rankings or partial, exhaustible ballots alike —
and every `n ≥ 2`, irv proceeds in rounds: each round every ballot is
advanced past already-eliminated leading entries, each non-exhausted ballot's
front casts one plurality vote (an exhausted ballot contributes nothing to
`irvFronts` and so casts none, without stopping the process), one candidate
is eliminated and the tallies are reset — until exactly `n - 1` distinct
candidates are eliminated; the method's returned ranking is the surviving
winner followed by the elimination log reversed (most-recently-eliminated
after the winner, first-eliminated last). -/
theorem irv_rounds_characterization (voters : List HonestVoter) (n : ℕ) (tb : TB)
    (hn : 2 ≤ n)
    (hord : ∀ v ∈ voters, ∀ c ∈ v.cachedOrdinalVote, c.id < n) :
    (irvRounds tb n (n - 1) (voters.map (fun v => v.cachedOrdinalVote), [])).isSome
    ∧ ∀ bs log,
        irvRounds tb n (n - 1) (voters.map (fun v => v.cachedOrdinalVote), [])
            = some (bs, log) →
        log.length = n - 1 ∧ log.Nodup ∧ (∀ x ∈ log, x < n)
        ∧ ∀ winner, (List.range n).find? (fun i => i ∉ log) = some winner →
            irv voters n tb
              = some (CandidateID.mk winner :: (log.map CandidateID.mk).reverse) := by
  obtain ⟨bs0, fin, winner0, hrounds, hlen, hnd, hbnd, _, hfind, _, _, hloop⟩ :=
    irvLoop_master tb n (n + 2) (voters.map (fun v => v.cachedOrdinalVote)) []
      (fun b hbm c hc => by
        obtain ⟨v, hvm, rfl⟩ := List.mem_map.mp hbm
        exact hord v hvm c hc)
      (by simp) List.nodup_nil (by simp; omega) (by simp; omega)
  have hrounds2 : irvRounds tb n (n - 1)
      (voters.map (fun v => v.cachedOrdinalVote), []) = some (bs0, fin) := hrounds
  constructor
  · rw [hrounds2]
    rfl
  · intro bs log h
    rw [hrounds2] at h
    have hpair := Option.some.inj h
    have hlog : fin = log := congrArg Prod.snd hpair
    subst hlog
    refine ⟨hlen, hnd, hbnd, ?_⟩
    intro winner hw
    rw [hfind] at hw
    have hww : winner0 = winner := Option.some.inj hw
    subst hww
    show irvLoop tb n (n + 2) (voters.map (fun v => v.cachedOrdinalVote)) []
        = some (CandidateID.mk winner0 :: (fin.map CandidateID.mk).reverse)
    exact hloop

/-- Witness on a population with a partial ballot: voter `[0]`'s ballot is
exhausted in round two (candidate 0 was eliminated in round one), casts no
vote there, and the loop still runs to `n - 1` eliminations. -/
theorem irv_rounds_characterization_witness :
    (irvRounds natCmpTB 3 2
        (partialBallotVoters.map (fun v => v.cachedOrdinalVote), [])).isSome
    ∧ irv partialBallotVoters 3 natCmpTB = some [⟨1⟩, ⟨2⟩, ⟨0⟩]
    ∧ irvAdvance [0] (partialBallotVoters.map (fun v => v.cachedOrdinalVote))
        = [[], [⟨1⟩, ⟨2⟩], [⟨1⟩, ⟨2⟩], [⟨2⟩, ⟨1⟩]] := by
  have h := irv_rounds_characterization partialBallotVoters 3 natCmpTB
    (by omega) (by decide)
  have h2 := h.2 [[], [⟨1⟩, ⟨2⟩], [⟨1⟩, ⟨2⟩], [⟨2⟩, ⟨1⟩]] [0, 2] (by decide)
  have h3 := h2.2.2.2 1 (by decide)
  exact ⟨h.1, h3, by decide⟩

/-- Claim C10: every method with a runoff or elimination stage needs at least
two candidates.  With `num_candidates = 1` and one voter, `fptp_runoff`,
`approval_runoff`, the three `score_*_runoff` methods and the three `star_*`
methods all panic on the failing indexing of position 1 of a one-element
ranking, and `irv` panics on the failed unwraps after its only candidate has
been eliminated (all modelled as `none`).  Under the precondition
`2 ≤ num_candidates`, on a well-formed population those indexings and unwraps
always succeed: the runoff methods and `irv` return `some`, and the STAR score
ranking's position-1 indexing succeeds (the STAR methods can still panic
later, in their bugged point-comparison stage). -/
theorem runoff_methods_need_two_candidates :
    (fptp_runoff [oneCandidateVoter] 1 natCmpTB = none
      ∧ approval_runoff [oneCandidateVoter] 1 natCmpTB = none
      ∧ score_5_runoff [oneCandidateVoter] 1 natCmpTB = none
      ∧ score_10_runoff [oneCandidateVoter] 1 natCmpTB = none
      ∧ score_100_runoff [oneCandidateVoter] 1 natCmpTB = none
      ∧ star_5 [oneCandidateVoter] 1 natCmpTB = none
      ∧ star_10 [oneCandidateVoter] 1 natCmpTB = none
      ∧ star_100 [oneCandidateVoter] 1 natCmpTB = none
      ∧ irv [oneCandidateVoter] 1 natCmpTB = none)
    ∧ ∀ (voters : List HonestVoter) (n : ℕ) (tb : TB), 2 ≤ n →
      (∀ v ∈ voters, v.cachedOrdinalVote.Perm (candidateList n)) →
      (∀ v ∈ voters, v.utilities.length = n) →
      (∀ v ∈ voters, ∀ c ∈ v.cachedApprovalBallot, c.id < n) →
      (∀ v ∈ voters, ∀ range ∈ [5, 10, 100], (v.cardinalBallot range).length = n) →
      ((fptp_runoff voters n tb).isSome
        ∧ (approval_runoff voters n tb).isSome
        ∧ (score_5_runoff voters n tb).isSome
        ∧ (score_10_runoff voters n tb).isSome
        ∧ (score_100_runoff voters n tb).isSome
        ∧ (irv voters n tb).isSome
        ∧ ∀ range ∈ [5, 10, 100],
            ((starScoreRanking voters n tb range).get? 1).isSome) := by
  constructor
  · exact ⟨rfl, rfl, rfl, rfl, rfl, rfl, rfl, rfl, rfl⟩
  · intro voters n tb hn hord hutil happ hcard
    have hbasePlur : ∃ ranking, pluralityDriver voters n tb = some ranking
        ∧ ranking.Perm (candidateList n) := by
      obtain ⟨r, hr⟩ := Option.isSome_iff_exists.mp
        (pluralityDriver_isSome voters n tb (by omega) hord)
      exact ⟨r, hr, pluralityDriver_perm voters n tb r hr⟩
    have hbaseAppr : ∃ ranking, approvalDriver voters n tb = some ranking
        ∧ ranking.Perm (candidateList n) := by
      obtain ⟨r, hr⟩ := Option.isSome_iff_exists.mp
        (approvalDriver_isSome voters n tb happ)
      exact ⟨r, hr, approvalDriver_perm voters n tb r hr⟩
    have hbaseScore : ∀ range ∈ [5, 10, 100],
        ∃ ranking, scoreDriver voters n tb range = some ranking
          ∧ ranking.Perm (candidateList n) := by
      intro range hrange
      obtain ⟨r, hr⟩ := Option.isSome_iff_exists.mp
        (scoreDriver_isSome voters n tb range (fun v hv => hcard v hv range hrange))
      exact ⟨r, hr, scoreDriver_perm voters n tb range r hr⟩
    refine ⟨?_, ?_, ?_, ?_, ?_, ?_, ?_⟩
    · exact runoffStep_isSome voters tb n _ hn hbasePlur hutil
    · exact runoffStep_isSome voters tb n _ hn hbaseAppr hutil
    · exact runoffStep_isSome voters tb n _ hn (hbaseScore 5 (by decide)) hutil
    · exact runoffStep_isSome voters tb n _ hn (hbaseScore 10 (by decide)) hutil
    · exact runoffStep_isSome voters tb n _ hn (hbaseScore 100 (by decide)) hutil
    · exact irv_isSome voters n tb hn hord
    · intro range _
      exact get?_isSome_of_perm_candidateList n _ 1
        (starScoreRanking_perm voters n tb range) (by omega)

theorem runoff_methods_need_two_candidates_witness :
    (fptp_runoff majorityVoters 3 natCmpTB).isSome
      ∧ (approval_runoff majorityVoters 3 natCmpTB).isSome
      ∧ (score_5_runoff majorityVoters 3 natCmpTB).isSome
      ∧ (irv majorityVoters 3 natCmpTB).isSome
      ∧ ((starScoreRanking majorityVoters 3 natCmpTB 5).get? 1).isSome := by
  have h := runoff_methods_need_two_candidates.2 majorityVoters 3 natCmpTB
    (by omega) (by decide) (by decide) (by decide) (by decide)
  exact ⟨h.1, h.2.1, h.2.2.1, h.2.2.2.2.2.1, h.2.2.2.2.2.2 5 (by decide)⟩

end EMSim
